import Mathlib

/-! HexDump utility (`HexDump.cpp`): embedding and verification.

The program has two functions: `print_hexdump`, which formats one chunk of
bytes as rows of 16, and `main`, which parses `[-n LEN] FILE`, opens the
file and feeds it to `print_hexdump` in reads of 4096 bytes.

Conventions of the embedding:

* `size_t` is the 64-bit unsigned type of an LP64 target; arithmetic the
  source does in `size_t` on values that are not bounded by a buffer size is
  written with an explicit `% 2 ^ 64`.
* Text written to `cout` / `cerr` is a `List Char`.
* The manipulators `setfill('0')` and `hex` are sticky on `cout`, `setw` is
  not; every number the program prints sets all three in the same
  expression and every string is printed with width 0, so the formatter
  `fmtHex` takes width and fill as arguments and no stream state is kept.
-/

namespace HexDump

/-! ## Data model -/

/-- An `unsigned char`. -/
abbrev Byte := Fin 256

/-- Number of values of `size_t` (64-bit). -/
def SIZE_MOD : Nat := 2 ^ 64

/-- The constant `SIZE_MAX` of `<cstdint>`. -/
def SIZE_MAX : Nat := 2 ^ 64 - 1

/-! ## Formatted output of integers (`operator<<` under `hex`) -/

/-- Lowercase hexadecimal digit for a value below 16, as `num_put` writes it
when `uppercase` is not set. -/
def hexDigitChar (d : Nat) : Char :=
  if d < 10 then Char.ofNat (48 + d) else Char.ofNat (87 + d)

/-- The digits of `v` in base 16, most significant first, without padding
(`0` gives the single digit `0`). -/
def toHex (v : Nat) : List Char :=
  if _h : v < 16 then [hexDigitChar v]
  else toHex (v / 16) ++ [hexDigitChar (v % 16)]
termination_by v
decreasing_by omega

/-- The text of `cout << setw(width) << setfill(fill) << hex << v`: the hex
digits of `v`, padded on the left with `fill` up to `width` characters when
they are fewer; `width` is a minimum, longer numbers are not cut. -/
def fmtHex (width : Nat) (fill : Char) (v : Nat) : List Char :=
  List.replicate (width - (toHex v).length) fill ++ toHex v

/-! ## `print_hexdump` -/

/-- One pass of the inner loop body (source lines 41-54) for the pair that
starts at `i + j`. -/
def hexGroup (buffer : List Byte) (length i j : Nat) : List Char :=
  if i + j < length then
    fmtHex 2 '0' (buffer.getD (i + j) 0).val
      ++ (if i + j + 1 < length then fmtHex 2 '0' (buffer.getD (i + j + 1) 0).val else [])
      ++ [' ']
  else
    [' ', ' ', ' ', ' ', ' ']

/-- One pass of the outer loop body (source lines 38-56): offset field,
the inner loop `for (j = 0; j < 16; j += 2)` unrolled over its eight values,
and `endl`.  `start_offset + i` is a `size_t` sum. -/
def hexRow (buffer : List Byte) (length start_offset i : Nat) : List Char :=
  fmtHex 8 '0' ((start_offset + i) % SIZE_MOD) ++ [' ']
    ++ ([0, 2, 4, 6, 8, 10, 12, 14].flatMap (hexGroup buffer length i))
    ++ ['\n']

/-- The outer loop `for (i = ..; i < length; i += 16)` from loop variable
`i` on.  `length` is the size of an object in memory, so `i + 16` does not
wrap. -/
def printRows (buffer : List Byte) (length start_offset i : Nat) : List Char :=
  if _h : i < length then
    hexRow buffer length start_offset i ++ printRows buffer length start_offset (i + 16)
  else []
termination_by length - i
decreasing_by omega

/-- The text `print_hexdump(buffer, length, start_offset)` writes to
`cout`. -/
def print_hexdump (buffer : List Byte) (length start_offset : Nat) : List Char :=
  printRows buffer length start_offset 0

/-! ## `main`: argument parsing -/

/-- The predicate `isspace` of the C locale. -/
def isspace (c : Char) : Bool :=
  c = ' ' || c = '\t' || c = '\n' || c = Char.ofNat 11 || c = Char.ofNat 12 || c = '\r'

/-- Value of the longest prefix of decimal digits, continuing from `acc`. -/
def digitsValue : List Char → Nat → Nat
  | [], acc => acc
  | c :: cs, acc =>
    if c.isDigit then digitsValue cs (acc * 10 + (c.toNat - 48)) else acc

/-- The C library call `strtol(s, NULL, 10)` with a 64-bit `long`: leading
white space is skipped, one optional sign is read, then the longest run of
decimal digits; no digits give 0, and a value outside `long` is clamped to
`LONG_MIN` / `LONG_MAX`. -/
def strtol (s : List Char) : Int :=
  match s.dropWhile isspace with
  | '-' :: t => max (-(digitsValue t 0 : Int)) (-(2 ^ 63))
  | '+' :: t => min (digitsValue t 0 : Int) (2 ^ 63 - 1)
  | t => min (digitsValue t 0 : Int) (2 ^ 63 - 1)

/-- The C library call `atoi(s)`, which is `(int) strtol(s, NULL, 10)`: the
`long` result is cut to a 32-bit `int`. -/
def atoi (s : String) : Int :=
  Int.bmod (strtol s.toList) (2 ^ 32)

/-- Conversion of an `int` to `size_t` (the assignment on source line 71):
the value modulo `2 ^ 64`. -/
def toSizeT (v : Int) : Nat :=
  (v % (2 ^ 64 : Int)).toNat

/-- The argument loop of `main` (source lines 68-83) over `argv[i..]`, with
the current `max_bytes` and `file_path`.  `none` is the early `return 1` of
a `-n` that is the last argument; otherwise the final values of the two
variables. -/
def parseArgs : List String → Nat → Option String → Option (Nat × Option String)
  | [], max_bytes, file_path => some (max_bytes, file_path)
  | [a], max_bytes, _ =>
    if a = "-n" then none else some (max_bytes, some a)
  | a :: len :: rest, max_bytes, file_path =>
    if a = "-n" then parseArgs rest (toSizeT (atoi len)) file_path
    else parseArgs (len :: rest) max_bytes (some a)

/-! ## `main`: the read loop -/

/-- Capacity of the stack buffer of `main`. -/
def buffer_size : Nat := 4096

/-- One call `print_hexdump(buffer, bytes_read, offset)` made by the read
loop, together with `gcount`, the number of bytes the read that precedes it
delivered. -/
structure Call where
  buffer : List Byte
  gcount : Nat
  bytes_read : Nat
  offset : Nat
deriving DecidableEq, Repr

/-- The read loop of `main` (source lines 111-137) as the list of the calls
of `print_hexdump` it makes, in order.  `rest` is what the stream has not
delivered yet, `buffer` the current content of the stack buffer, `offset`
the running offset.

`file.read(buffer, 4096)` delivers the next `min 4096 |rest|` bytes into
the front of the buffer and leaves the bytes behind them as they were.
The loop condition holds when that number is not zero: a full read
succeeds, a short one fails but has a non-zero `gcount`.  After a short
read nothing is left, so the read after it delivers nothing, as the failed
stream does.  The comparison, the subtraction and the addition are done in
`size_t`. -/
def readLoop (max_bytes : Nat) (rest buffer : List Byte) (offset : Nat) : List Call :=
  if _h : (rest.take buffer_size).length = 0 then []
  else
    let chunk := rest.take buffer_size
    let buffer1 := chunk ++ buffer.drop chunk.length
    let gcount := chunk.length
    let bytes_read :=
      if (offset + gcount) % SIZE_MOD > max_bytes then
        (max_bytes + SIZE_MOD - offset) % SIZE_MOD
      else gcount
    let offset1 := (offset + bytes_read) % SIZE_MOD
    ⟨buffer1, gcount, bytes_read, offset⟩ ::
      (if offset1 ≥ max_bytes then [] else readLoop max_bytes (rest.drop buffer_size) buffer1 offset1)
termination_by rest.length
decreasing_by
  simp only [buffer_size, List.length_take, List.length_drop] at *
  omega

/-- What `cout` receives from a list of calls of `print_hexdump`. -/
def callsOutput (calls : List Call) : List Char :=
  calls.flatMap (fun c => print_hexdump c.buffer c.bytes_read c.offset)

/-- Observable result of a run of `main`. -/
structure Result where
  exitCode : Nat
  stdout : List Char
  stderr : List Char
deriving DecidableEq, Repr

/-- The function `main`.  `fs` is the file system: `fs p` is the content of
the file `p` when `ifstream file(p, ios::binary)` opens, `none` when it does
not.  `argv` holds the program name followed by the arguments.  The stack
buffer starts with arbitrary content, taken here as zeros. -/
def main (fs : String → Option (List Byte)) (argv : List String) : Result :=
  match parseArgs argv.tail SIZE_MAX none with
  | none =>
    ⟨1, [], "Error: -n requires a length argument.\n".toList⟩
  | some (_, none) =>
    ⟨1, [], "Error! Use the below format: ".toList ++ (argv.headD "").toList
              ++ " [-n LEN] FILE\n".toList⟩
  | some (max_bytes, some file_path) =>
    match fs file_path with
    | none => ⟨1, [], "Error: Could not open file ".toList ++ file_path.toList ++ ['\n']⟩
    | some content =>
      ⟨0, callsOutput (readLoop max_bytes content (List.replicate buffer_size 0) 0), []⟩

/-! ## Reading a dump back

These functions follow the wording of the specification: they are the
observer used to state what a dump contains. -/

/-- The newline-terminated rows of a text, without their newline; text after
the last newline is not a row. -/
def rowsAux : List Char → List Char → List (List Char)
  | [], _ => []
  | c :: cs, cur => if c = '\n' then cur.reverse :: rowsAux cs [] else rowsAux cs (c :: cur)

/-- The rows of an output text. -/
def rows (out : List Char) : List (List Char) := rowsAux out []

/-- The leading offset field of a row: the characters before its first
space. -/
def offsetField (row : List Char) : List Char := row.takeWhile (fun c => c != ' ')

/-- A row without its leading offset field. -/
def dropOffsetField (row : List Char) : List Char := row.dropWhile (fun c => c != ' ')

/-- Value of a lowercase hexadecimal digit. -/
def hexVal (c : Char) : Option Nat :=
  if '0' ≤ c ∧ c ≤ '9' then some (c.toNat - 48)
  else if 'a' ≤ c ∧ c ≤ 'f' then some (c.toNat - 87)
  else none

/-- Decode a text made of pairs of hex digits into bytes; `none` when a
character is not a lowercase hex digit or the number of digits is odd. -/
def decodePairs : List Char → Option (List Nat)
  | [] => some []
  | [_] => none
  | a :: b :: cs =>
    match hexVal a, hexVal b, decodePairs cs with
    | some x, some y, some r => some ((16 * x + y) :: r)
    | _, _, _ => none

/-- The bytes shown in the byte columns of a text: spaces and newlines are
ignored, the remaining characters are decoded as hex digit pairs. -/
def decodeBytes (text : List Char) : Option (List Nat) :=
  decodePairs (text.filter (fun c => c != ' ' && c != '\n'))

/-- The bytes a whole dump shows: each row without its offset field, in
order. -/
def decodeDump (out : List Char) : Option (List Nat) :=
  decodeBytes ((rows out).flatMap dropOffsetField)

/-- Read a string of hex digits as a base-16 number, continuing from
`acc`. -/
def readHex : List Char → Nat → Option Nat
  | [], acc => some acc
  | c :: cs, acc =>
    match hexVal c with
    | some d => readHex cs (16 * acc + d)
    | none => none

/-- Rounded-up quotient `ceil(n / 16)`. -/
def ceilDiv16 (n : Nat) : Nat := (n + 15) / 16

/-- The sixteen lowercase hexadecimal digits, in order of value. -/
def lowerHexDigits : List Char := "0123456789abcdef".toList

/-- The lowercase hex digit of value `d`, looked up in `lowerHexDigits`. -/
def hexDigitSpec (d : Nat) : Char := lowerHexDigits.getD d '0'

/-- A byte value as two lowercase hex digits. -/
def hex2 (v : Nat) : List Char := [hexDigitSpec (v / 16 % 16), hexDigitSpec (v % 16)]

/-- A value as eight lowercase hex digits, zero-padded. -/
def hex8 (v : Nat) : List Char :=
  [hexDigitSpec (v / 16 ^ 7 % 16), hexDigitSpec (v / 16 ^ 6 % 16), hexDigitSpec (v / 16 ^ 5 % 16),
   hexDigitSpec (v / 16 ^ 4 % 16), hexDigitSpec (v / 16 ^ 3 % 16), hexDigitSpec (v / 16 ^ 2 % 16),
   hexDigitSpec (v / 16 % 16), hexDigitSpec (v % 16)]

/-- Zero-padded digits of a value below `16 ^ k`, one digit per position. -/
def fixedHex : Nat → Nat → List Char
  | 0, _ => []
  | k + 1, v => fixedHex k (v / 16) ++ [hexDigitSpec (v % 16)]

/-- The text of one byte pair of a row as the specification words it, for
the chunk `ch` and the position `k` of the first byte of the pair. -/
def specGroup (ch : List Byte) (k : Nat) : List Char :=
  match ch[k]?, ch[k + 1]? with
  | some a, some b => hex2 a.val ++ hex2 b.val ++ [' ']
  | some a, none => hex2 a.val ++ [' ']
  | none, _ => [' ', ' ', ' ', ' ', ' ']

/-- The eight byte pairs of row `r` of the chunk `ch`. -/
def specGroups (ch : List Byte) (r : Nat) : List Char :=
  (List.range 8).flatMap (fun g => specGroup ch (16 * r + 2 * g))

/-- Row `r` of the dump of chunk `ch` at start offset `s`, without its
newline: eight hex digits of `s + 16 r`, a space, the eight byte pairs. -/
def specRow (ch : List Byte) (s r : Nat) : List Char :=
  hex8 (s + 16 * r) ++ [' '] ++ specGroups ch r

/-- The running offset after the iteration that made the call `c`: the
statement `offset += bytes_read` on source line 129, a `size_t` sum. -/
def offsetAfter (c : Call) : Nat := (c.offset + c.bytes_read) % SIZE_MOD

/-! ## Roles of the command-line tokens

These definitions follow the wording of the specification, not the loop of
`main`: a token `-n` is the limit option, the token directly after an option
is its `LEN` whatever it looks like, every other token is a file path. -/

/-- The role of one token of the argument vector. -/
inductive Role where
  | option
  | value
  | path
deriving DecidableEq, Repr

/-- The roles of the tokens, left to right; the flag tells whether the token
before the first one was an option. -/
def rolesFrom : Bool → List String → List Role
  | _, [] => []
  | true, _ :: rest => Role.value :: rolesFrom false rest
  | false, a :: rest =>
    if a = "-n" then Role.option :: rolesFrom true rest
    else Role.path :: rolesFrom false rest

/-- The roles of the arguments that follow the program name. -/
def roles (args : List String) : List Role := rolesFrom false args

/-- The tokens that have role `r`, in order. -/
def tokensWithRole (r : Role) (args : List String) : List String :=
  ((args.zip (roles args)).filter (fun p => p.2 = r)).map (fun p => p.1)

/-- The file paths supplied. -/
def filePaths (args : List String) : List String := tokensWithRole Role.path args

/-- The `LEN` values supplied. -/
def lenValues (args : List String) : List String := tokensWithRole Role.value args

/-- An option `-n` is the last argument: it has no value after it. -/
def danglingOption (args : List String) : Bool := (roles args).getLast? = some Role.option

/-- The limit in force after the arguments: that of the last `LEN`, the
current one when no `LEN` is supplied. -/
def lastLimit (args : List String) (current : Nat) : Nat :=
  match (lenValues args).getLast? with
  | some len => toSizeT (atoi len)
  | none => current

/-- The file path in force after the arguments: the last one supplied, the
current one when none is supplied. -/
def lastPath (args : List String) (current : Option String) : Option String :=
  match (filePaths args).getLast? with
  | some p => some p
  | none => current

/-- The text `main` writes to `cerr` when a `-n` has no value. -/
def missingLengthMessage : List Char := "Error: -n requires a length argument.\n".toList

/-- The text `main` writes to `cerr` when no file path is supplied. -/
def usageMessage (prog : String) : List Char :=
  "Error! Use the below format: ".toList ++ prog.toList ++ " [-n LEN] FILE\n".toList

/-- The text `main` writes to `cerr` when the file does not open. -/
def openFailureMessage (path : String) : List Char :=
  "Error: Could not open file ".toList ++ path.toList ++ ['\n']

/-- The argument has no leading decimal integer: after optional white space
and one optional sign the next character is not a decimal digit. -/
def nonNumeric (len : String) : Bool :=
  match len.toList.dropWhile isspace with
  | '-' :: t => !(t.head?.map Char.isDigit).getD false
  | '+' :: t => !(t.head?.map Char.isDigit).getD false
  | t => !(t.head?.map Char.isDigit).getD false

/-- The argument vector of the documented usage `PROGRAM [-n LEN] FILE`;
`limit` is the `LEN` when the option is given. -/
def usageArgv (prog : String) (limit : Option String) (path : String) : List String :=
  match limit with
  | none => [prog, path]
  | some len => [prog, "-n", len, path]

/-- The value of `max_bytes` the documented usage leaves: `SIZE_MAX` without
the option, the converted `atoi` result with it. -/
def limitOf (limit : Option String) : Nat :=
  match limit with
  | none => SIZE_MAX
  | some len => toSizeT (atoi len)

/-- The number of bytes of the file a run is to show: the limit or the file
size, whichever is smaller. -/
def dumpedLength (limit : Option String) (content : List Byte) : Nat :=
  min (limitOf limit) content.length

/-- A file system that holds one file, `f`, of three bytes; used to
instantiate the theorems on a concrete run. -/
def sampleFs : String → Option (List Byte) :=
  fun p => if p = "f" then some [0x41, 0x42, 0x43] else none

/-- A file system that holds one file, `big`, of 4100 bytes: one full read
of 4096 bytes and a short one. -/
def bigFs : String → Option (List Byte) :=
  fun p => if p = "big" then some (List.replicate 4100 0x41) else none

/-! ## Hexadecimal digits -/

theorem hexDigitChar_eq_spec (d : Nat) (hd : d < 16) : hexDigitChar d = hexDigitSpec d := by
  interval_cases d <;> rfl

theorem hexDigitSpec_mem (d : Nat) (hd : d < 16) : hexDigitSpec d ∈ lowerHexDigits := by
  interval_cases d <;> simp [hexDigitSpec, lowerHexDigits]

theorem hexVal_hexDigitSpec (d : Nat) (hd : d < 16) : hexVal (hexDigitSpec d) = some d := by
  interval_cases d <;> rfl

theorem hexDigitSpec_ne_space (d : Nat) (hd : d < 16) : hexDigitSpec d ≠ ' ' := by
  interval_cases d <;> decide

theorem hexDigitSpec_ne_newline (d : Nat) (hd : d < 16) : hexDigitSpec d ≠ '\n' := by
  interval_cases d <;> decide

theorem toHex_lt (v : Nat) (h : v < 16) : toHex v = [hexDigitSpec v] := by
  rw [toHex, dif_pos h, hexDigitChar_eq_spec v h]

theorem toHex_ge (v : Nat) (h : 16 ≤ v) :
    toHex v = toHex (v / 16) ++ [hexDigitSpec (v % 16)] := by
  rw [toHex, dif_neg (by omega), hexDigitChar_eq_spec _ (Nat.mod_lt _ (by decide))]

/-- Every character `toHex` writes is a lowercase hex digit. -/
theorem toHex_mem (v : Nat) : ∀ c ∈ toHex v, c ∈ lowerHexDigits := by
  induction v using Nat.strong_induction_on with
  | _ v ih =>
    by_cases h : v < 16
    · intro c hc
      rw [toHex_lt v h] at hc
      simp only [List.mem_singleton] at hc
      subst hc
      exact hexDigitSpec_mem v h
    · intro c hc
      rw [toHex_ge v (by omega)] at hc
      rcases List.mem_append.mp hc with hc | hc
      · exact ih (v / 16) (by omega) c hc
      · simp only [List.mem_singleton] at hc
        subst hc
        exact hexDigitSpec_mem _ (Nat.mod_lt _ (by decide))

theorem readHex_snoc (l : List Char) (d acc : Nat) (hd : d < 16) :
    readHex (l ++ [hexDigitSpec d]) acc = (readHex l acc).map (fun x => 16 * x + d) := by
  induction l generalizing acc with
  | nil => simp [readHex, hexVal_hexDigitSpec d hd]
  | cons c cs ih =>
    simp only [List.cons_append, readHex]
    cases hexVal c with
    | none => rfl
    | some x => exact ih _

/-- Reading the digits of `v` gives `v` back. -/
theorem readHex_toHex (v : Nat) : readHex (toHex v) 0 = some v := by
  induction v using Nat.strong_induction_on with
  | _ v ih =>
    by_cases h : v < 16
    · rw [toHex_lt v h]
      simp [readHex, hexVal_hexDigitSpec v h]
    · rw [toHex_ge v (by omega), readHex_snoc _ _ _ (Nat.mod_lt _ (by decide)),
        ih (v / 16) (by omega)]
      simp only [Option.map_some', Option.some.injEq]
      omega

theorem readHex_zeros (k : Nat) (l : List Char) :
    readHex (List.replicate k '0' ++ l) 0 = readHex l 0 := by
  induction k with
  | zero => rfl
  | succ k ih =>
    rw [List.replicate_succ, List.cons_append, readHex]
    exact ih

/-- The digits of a value below `16 ^ k` are at most `k` (for `k ≥ 1`). -/
theorem toHex_length_le (k : Nat) : ∀ v, v < 16 ^ (k + 1) → (toHex v).length ≤ k + 1 := by
  induction k with
  | zero =>
    intro v hv
    rw [toHex_lt v (by simpa using hv)]
    simp
  | succ k ih =>
    intro v hv
    by_cases h : v < 16
    · rw [toHex_lt v h]; simp
    · rw [toHex_ge v (by omega)]
      have : v / 16 < 16 ^ (k + 1) := by
        rw [Nat.div_lt_iff_lt_mul (by decide)]
        rw [pow_succ] at hv
        exact hv
      have := ih _ this
      simp only [List.length_append, List.length_singleton]
      omega

theorem fixedHex_length (k v : Nat) : (fixedHex k v).length = k := by
  induction k generalizing v with
  | zero => rfl
  | succ k ih => simp [fixedHex, ih]

theorem fmtHex_eq_fixedHex (k : Nat) :
    ∀ v, v < 16 ^ (k + 1) → fmtHex (k + 1) '0' v = fixedHex (k + 1) v := by
  induction k with
  | zero =>
    intro v hv
    have h : v < 16 := by simpa using hv
    simp [fmtHex, toHex_lt v h, fixedHex, Nat.mod_eq_of_lt h]
  | succ k ih =>
    intro v hv
    by_cases h : v < 16
    · have h0 : v / 16 = 0 := Nat.div_eq_of_lt h
      have := ih 0 (by positivity)
      rw [fixedHex, h0, ← this]
      simp [fmtHex, toHex_lt v h, toHex_lt 0 (by decide), Nat.mod_eq_of_lt h,
        List.replicate_succ', hexDigitSpec, lowerHexDigits]
    · have hlt : v / 16 < 16 ^ (k + 1) := by
        rw [Nat.div_lt_iff_lt_mul (by decide)]
        rw [pow_succ] at hv
        exact hv
      have hlen := toHex_length_le k _ hlt
      rw [fixedHex, ← ih _ hlt]
      simp only [fmtHex, toHex_ge v (by omega), List.length_append, List.length_singleton,
        List.append_assoc]
      congr 2
      omega

theorem fmtHex_byte (v : Nat) (hv : v < 256) : fmtHex 2 '0' v = hex2 v := by
  rw [fmtHex_eq_fixedHex 1 v (by simpa using hv)]
  simp [fixedHex, hex2]

theorem fmtHex_word (v : Nat) (hv : v < 2 ^ 32) : fmtHex 8 '0' v = hex8 v := by
  rw [fmtHex_eq_fixedHex 7 v (by norm_num; omega)]
  simp only [fixedHex, hex8, List.nil_append, List.cons_append, List.singleton_append,
    Nat.div_div_eq_div_mul]
  norm_num

/-! ## The rows of `print_hexdump` -/

theorem printRows_of_lt (buffer : List Byte) (length s i : Nat) (h : i < length) :
    printRows buffer length s i
      = hexRow buffer length s i ++ printRows buffer length s (i + 16) := by
  rw [printRows, dif_pos h]

theorem printRows_of_ge (buffer : List Byte) (length s i : Nat) (h : length ≤ i) :
    printRows buffer length s i = [] := by
  rw [printRows, dif_neg (by omega)]

/-- The groups of a row depend on the buffer only below `length`. -/
theorem hexGroup_congr (b1 b2 : List Byte) (length i j : Nat)
    (h : b1.take length = b2.take length) :
    hexGroup b1 length i j = hexGroup b2 length i j := by
  have key : ∀ k, k < length → b1.getD k 0 = b2.getD k 0 := by
    intro k hk
    have h1 : (b1.take length).getD k 0 = b1.getD k 0 := by
      simp [List.getD_eq_getElem?_getD, List.getElem?_take, hk]
    have h2 : (b2.take length).getD k 0 = b2.getD k 0 := by
      simp [List.getD_eq_getElem?_getD, List.getElem?_take, hk]
    rw [← h1, ← h2, h]
  unfold hexGroup
  by_cases h1 : i + j < length
  · by_cases h2 : i + j + 1 < length
    · simp only [h1, h2, if_true, key _ h1, key _ h2]
    · simp only [h1, h2, if_true, if_false, key _ h1]
  · simp only [h1, if_false]

theorem hexRow_congr (b1 b2 : List Byte) (length s i : Nat)
    (h : b1.take length = b2.take length) :
    hexRow b1 length s i = hexRow b2 length s i := by
  unfold hexRow
  simp only [List.flatMap_cons, List.flatMap_nil, hexGroup_congr b1 b2 length i _ h]

/-- What `print_hexdump` writes depends on the buffer only below `length`:
bytes behind the part handed over are never read. -/
theorem printRows_congr (b1 b2 : List Byte) (length s : Nat)
    (h : b1.take length = b2.take length) (n : Nat) :
    ∀ i, length - i ≤ n → printRows b1 length s i = printRows b2 length s i := by
  induction n with
  | zero =>
    intro i hi
    rw [printRows_of_ge _ _ _ _ (by omega), printRows_of_ge _ _ _ _ (by omega)]
  | succ n ih =>
    intro i hi
    by_cases hlt : i < length
    · rw [printRows_of_lt b1 length s i hlt, printRows_of_lt b2 length s i hlt,
        hexRow_congr b1 b2 length s i h, ih (i + 16) (by omega)]
    · rw [printRows_of_ge _ _ _ _ (by omega), printRows_of_ge _ _ _ _ (by omega)]

theorem hexGroup_shift (buffer : List Byte) (length i j d : Nat) :
    hexGroup buffer length (i + d) j = hexGroup (buffer.drop d) (length - d) i j := by
  have key : ∀ k, (buffer.drop d).getD k 0 = buffer.getD (k + d) 0 := by
    intro k
    simp [List.getD_eq_getElem?_getD, List.getElem?_drop, Nat.add_comm]
  unfold hexGroup
  rw [key, key]
  have e1 : i + j + d = i + d + j := by omega
  have e2 : i + j + 1 + d = i + d + j + 1 := by omega
  rw [e1, e2]
  by_cases h1 : i + d + j < length
  · have h1' : i + j < length - d := by omega
    by_cases h2 : i + d + j + 1 < length
    · have h2' : i + j + 1 < length - d := by omega
      simp only [h1, h2, h1', h2', if_true]
    · have h2' : ¬ i + j + 1 < length - d := by omega
      simp only [h1, h2, h1', h2', if_true, if_false]
  · have h1' : ¬ i + j < length - d := by omega
    simp only [h1, h1', if_false]

theorem hexRow_shift (buffer : List Byte) (length s i d : Nat) :
    hexRow buffer length s (i + d) = hexRow (buffer.drop d) (length - d) (s + d) i := by
  unfold hexRow
  have e : s + (i + d) = s + d + i := by omega
  simp only [List.flatMap_cons, List.flatMap_nil, hexGroup_shift, e]

/-- Dumping from loop position `i + d` is dumping the buffer without its
first `d` bytes from position `i`, with the start offset moved by `d`. -/
theorem printRows_shift (buffer : List Byte) (length s d : Nat) (n : Nat) :
    ∀ i, length - (i + d) ≤ n →
      printRows buffer length s (i + d) = printRows (buffer.drop d) (length - d) (s + d) i := by
  induction n with
  | zero =>
    intro i hi
    rw [printRows_of_ge _ _ _ _ (by omega), printRows_of_ge _ _ _ _ (by omega)]
  | succ n ih =>
    intro i hi
    by_cases hlt : i + d < length
    · rw [printRows_of_lt buffer length s (i + d) hlt,
        printRows_of_lt (buffer.drop d) (length - d) (s + d) i (by omega), hexRow_shift]
      have e : i + d + 16 = (i + 16) + d := by omega
      rw [e, ih (i + 16) (by omega)]
    · rw [printRows_of_ge _ _ _ _ (by omega), printRows_of_ge _ _ _ _ (by omega)]

/-- A row that lies wholly below the length does not depend on the length. -/
theorem hexRow_full (buffer : List Byte) (l1 l2 s i : Nat) (h1 : i + 16 ≤ l1)
    (h2 : i + 16 ≤ l2) : hexRow buffer l1 s i = hexRow buffer l2 s i := by
  have e : ∀ j, j < 15 → hexGroup buffer l1 i j = hexGroup buffer l2 i j := by
    intro j hj
    unfold hexGroup
    rw [if_pos (by omega), if_pos (by omega), if_pos (by omega), if_pos (by omega)]
  unfold hexRow
  simp only [List.flatMap_cons, List.flatMap_nil, e 0 (by omega), e 2 (by omega),
    e 4 (by omega), e 6 (by omega), e 8 (by omega), e 10 (by omega), e 12 (by omega),
    e 14 (by omega)]

/-- Splitting a dump at a row boundary `i + 16 k` below the length: the rows
before the boundary are those of a dump that ends there. -/
theorem printRows_split (buffer : List Byte) (length s : Nat) (k : Nat) :
    ∀ i, i + 16 * k ≤ length →
      printRows buffer length s i
        = printRows buffer (i + 16 * k) s i ++ printRows buffer length s (i + 16 * k) := by
  induction k with
  | zero =>
    intro i _
    rw [printRows_of_ge buffer (i + 16 * 0) s i (by omega)]
    simp
  | succ k ih =>
    intro i hi
    rw [printRows_of_lt buffer length s i (by omega),
      printRows_of_lt buffer (i + 16 * (k + 1)) s i (by omega),
      hexRow_full buffer length (i + 16 * (k + 1)) s i (by omega) (by omega)]
    have e : i + 16 * (k + 1) = (i + 16) + 16 * k := by omega
    rw [e, ih (i + 16) (by omega), List.append_assoc]

/-! ## The read loop -/

theorem readLoop_nil (L : Nat) (buffer : List Byte) (offset : Nat) :
    readLoop L [] buffer offset = [] := by
  rw [readLoop]
  simp

theorem callsOutput_nil : callsOutput [] = [] := rfl

theorem callsOutput_cons (c : Call) (cs : List Call) :
    callsOutput (c :: cs) = print_hexdump c.buffer c.bytes_read c.offset ++ callsOutput cs := by
  simp [callsOutput]

/-- The rows of one call of the loop, on the buffer as the read left it, are
rows of the one-shot dump: the chunk sits at position `|pre|` of the file. -/
theorem chunk_rows (pre rest junk : List Byte) (len : Nat)
    (hlen : len ≤ min buffer_size rest.length) :
    printRows (rest.take buffer_size ++ junk) len pre.length 0
      = printRows (pre ++ rest) (pre.length + len) 0 pre.length := by
  have h1 := printRows_shift (pre ++ rest) (pre.length + len) 0 pre.length
    (pre.length + len) 0 (by omega)
  simp only [Nat.zero_add, List.drop_left, Nat.add_sub_cancel_left] at h1
  rw [h1]
  apply printRows_congr _ _ _ _ _ len 0 (by omega)
  rw [List.take_append_of_le_length (by simpa using hlen), List.take_take]
  congr 1
  omega

/-- The loop invariant of the read loop as an equation on the output: when
`pre` has been dumped and `rest` is still in the stream, the loop writes the
rows of the one-shot dump of the first `min L |file|` bytes from position
`|pre|` on. -/
theorem readLoop_output_from (L : Nat) (hL : L < SIZE_MOD) (n : Nat) :
    ∀ (pre rest buffer : List Byte), rest.length ≤ n → (pre ++ rest).length < SIZE_MOD →
      pre.length ≤ L →
      callsOutput (readLoop L rest buffer pre.length)
        = printRows (pre ++ rest) (min L (pre ++ rest).length) 0 pre.length := by
  induction n with
  | zero =>
    intro pre rest buffer hn _ _
    have : rest = [] := List.eq_nil_of_length_eq_zero (by omega)
    subst this
    rw [readLoop_nil, callsOutput_nil, printRows_of_ge _ _ _ _ (by simp)]
  | succ n ih =>
    intro pre rest buffer hn hsz hpre
    by_cases hrest : rest = []
    · subst hrest
      rw [readLoop_nil, callsOutput_nil, printRows_of_ge _ _ _ _ (by simp)]
    · have hpos : 0 < rest.length := List.length_pos.mpr hrest
      have hg : (rest.take buffer_size).length = min buffer_size rest.length := by simp
      have hbs : buffer_size = 4096 := rfl
      rw [List.length_append] at hsz
      rw [readLoop, dif_neg (by rw [hg, hbs]; omega)]
      simp only [hg]
      have hchunk := fun len h => chunk_rows pre rest (List.drop (min buffer_size rest.length) buffer) len h
      generalize hgdef : min buffer_size rest.length = g at hchunk ⊢
      have hg1 : 0 < g := by rw [← hgdef, hbs]; omega
      have hg2 : g ≤ rest.length := by omega
      have hg3 : g ≤ 4096 := by omega
      have hM : SIZE_MOD = 2 ^ 64 := rfl
      have hmod1 : (pre.length + g) % SIZE_MOD = pre.length + g := Nat.mod_eq_of_lt (by omega)
      rw [hmod1]
      by_cases hc : pre.length + g > L
      · have hsub : (L + SIZE_MOD - pre.length) % SIZE_MOD = L - pre.length := by
          rw [show L + SIZE_MOD - pre.length = (L - pre.length) + SIZE_MOD by omega,
            Nat.add_mod_right, Nat.mod_eq_of_lt (by omega)]
        have hoff : (pre.length + (L - pre.length)) % SIZE_MOD = L := by
          rw [show pre.length + (L - pre.length) = L by omega]
          exact Nat.mod_eq_of_lt hL
        simp only [if_pos hc, hsub]
        rw [hoff, if_pos (le_refl L), callsOutput_cons, callsOutput_nil, List.append_nil]
        simp only [print_hexdump]
        rw [hchunk (L - pre.length) (by omega)]
        congr 1
        simp only [List.length_append]
        omega
      · simp only [if_neg hc, hmod1]
        by_cases hstop : pre.length + g ≥ L
        · rw [if_pos hstop, callsOutput_cons, callsOutput_nil, List.append_nil]
          simp only [print_hexdump]
          rw [hchunk g (le_refl g)]
          congr 1
          simp only [List.length_append]
          omega
        · rw [if_neg hstop, callsOutput_cons]
          simp only [print_hexdump]
          rw [hchunk g (le_refl g)]
          by_cases hfull : g = 4096
          · have hlen : (pre ++ rest.take buffer_size).length = pre.length + g := by
              rw [List.length_append, hg, hgdef]
            have hcat : (pre ++ rest.take buffer_size) ++ rest.drop buffer_size = pre ++ rest := by
              rw [List.append_assoc, List.take_append_drop]
            have := ih (pre ++ rest.take buffer_size) (rest.drop buffer_size)
              (List.take buffer_size rest ++ List.drop g buffer)
              (by rw [List.length_drop, hbs]; omega)
              (by rw [hcat, List.length_append]; omega)
              (by rw [hlen]; omega)
            rw [hlen, hcat] at this
            rw [this]
            have hsp := printRows_split (pre ++ rest) (min L (pre ++ rest).length) 0 256
              pre.length (by simp only [List.length_append]; omega)
            rw [hsp, hfull]
          · have hdrop : rest.drop buffer_size = [] := by
              apply List.drop_eq_nil_of_le
              rw [hbs]; omega
            rw [hdrop, readLoop_nil, callsOutput_nil, List.append_nil]
            congr 1
            simp only [List.length_append]
            omega

/-- The text the read loop writes is the one-shot dump of the first
`min L |file|` bytes of the file at start offset 0, whatever the buffer held
before. -/
theorem readLoop_output (L : Nat) (hL : L < SIZE_MOD) (content buffer : List Byte)
    (hsz : content.length < SIZE_MOD) :
    callsOutput (readLoop L content buffer 0)
      = print_hexdump content (min L content.length) 0 := by
  have := readLoop_output_from L hL content.length [] content buffer (le_refl _)
    (by simpa using hsz) (by simp)
  simpa [print_hexdump] using this

/-! ## One call of `print_hexdump`, row by row -/

theorem ceilDiv16_step (n : Nat) (h : 0 < n) : ceilDiv16 n = ceilDiv16 (n - 16) + 1 := by
  unfold ceilDiv16
  omega

/-- The loop runs once per started row of 16. -/
theorem printRows_eq_flatMap (buffer : List Byte) (length s : Nat) (n : Nat) :
    ∀ i, length - i ≤ n →
      printRows buffer length s i
        = (List.range (ceilDiv16 (length - i))).flatMap
            (fun r => hexRow buffer length s (i + 16 * r)) := by
  induction n with
  | zero =>
    intro i hi
    rw [printRows_of_ge _ _ _ _ (by omega), show length - i = 0 by omega]
    rfl
  | succ n ih =>
    intro i hi
    by_cases hlt : i < length
    · rw [printRows_of_lt buffer length s i hlt, ih (i + 16) (by omega),
        ceilDiv16_step (length - i) (by omega), List.range_succ_eq_map, List.flatMap_cons,
        List.flatMap_map, show length - i - 16 = length - (i + 16) by omega]
      congr 1
      apply congrArg
      funext r
      simp only [Function.comp, Nat.succ_eq_add_one]
      congr 1
      omega
    · rw [printRows_of_ge _ _ _ _ (by omega), show length - i = 0 by omega]
      rfl

theorem getD_take_val (buffer : List Byte) (length k : Nat) (hk : k < length)
    (hlen : length ≤ buffer.length) :
    (buffer.take length)[k]? = some (buffer.getD k 0) := by
  rw [List.getElem?_take_of_lt hk, List.getD_eq_getElem?_getD,
    List.getElem?_eq_getElem (by omega)]
  rfl

/-- The inner loop body writes the pair the specification describes. -/
theorem hexGroup_eq_spec (buffer : List Byte) (length i j : Nat)
    (hlen : length ≤ buffer.length) :
    hexGroup buffer length i j = specGroup (buffer.take length) (i + j) := by
  unfold hexGroup specGroup
  by_cases h1 : i + j < length
  · rw [if_pos h1, getD_take_val buffer length (i + j) h1 hlen,
      fmtHex_byte _ (buffer.getD (i + j) 0).isLt]
    by_cases h2 : i + j + 1 < length
    · rw [if_pos h2, getD_take_val buffer length (i + j + 1) h2 hlen,
        fmtHex_byte _ (buffer.getD (i + j + 1) 0).isLt]
    · rw [if_neg h2]
      have : (buffer.take length)[i + j + 1]? = none := by
        apply List.getElem?_eq_none
        simp only [List.length_take]
        omega
      rw [this]
      simp
  · rw [if_neg h1]
    have : (buffer.take length)[i + j]? = none := by
      apply List.getElem?_eq_none
      simp only [List.length_take]
      omega
    rw [this]

/-- The outer loop body writes offset field, space, the eight pairs and a
newline. -/
theorem hexRow_eq (buffer : List Byte) (length s r : Nat) (hlen : length ≤ buffer.length) :
    hexRow buffer length s (16 * r)
      = (fmtHex 8 '0' ((s + 16 * r) % SIZE_MOD) ++ [' '] ++ specGroups (buffer.take length) r)
          ++ ['\n'] := by
  unfold hexRow specGroups
  rw [show List.range 8 = [0, 1, 2, 3, 4, 5, 6, 7] by decide]
  simp only [List.flatMap_cons, List.flatMap_nil, hexGroup_eq_spec buffer length _ _ hlen]

/-- The text of one call, row by row. -/
theorem print_hexdump_eq (buffer : List Byte) (length s : Nat) (hlen : length ≤ buffer.length) :
    print_hexdump buffer length s
      = (List.range (ceilDiv16 length)).flatMap (fun r =>
          (fmtHex 8 '0' ((s + 16 * r) % SIZE_MOD) ++ [' '] ++ specGroups (buffer.take length) r)
            ++ ['\n']) := by
  unfold print_hexdump
  rw [printRows_eq_flatMap buffer length s length 0 (by omega)]
  simp only [Nat.sub_zero, Nat.zero_add, hexRow_eq buffer length s _ hlen]

/-! ## Splitting a dump into rows -/

theorem rowsAux_append (l rest cur : List Char) (hl : '\n' ∉ l) :
    rowsAux (l ++ '\n' :: rest) cur = (cur.reverse ++ l) :: rowsAux rest [] := by
  induction l generalizing cur with
  | nil => simp [rowsAux]
  | cons c cs ih =>
    have hc : c ≠ '\n' := fun h => hl (by simp [h])
    have hcs : '\n' ∉ cs := fun h => hl (List.mem_cons_of_mem _ h)
    rw [List.cons_append, rowsAux, if_neg hc, ih _ hcs]
    simp

/-- A text made of newline-terminated pieces without inner newlines has
exactly those pieces as rows. -/
theorem rows_flatMap {α : Type} (rs : List α) (f : α → List Char)
    (hf : ∀ r ∈ rs, '\n' ∉ f r) :
    rows (rs.flatMap (fun r => f r ++ ['\n'])) = rs.map f := by
  induction rs with
  | nil => rfl
  | cons r rs ih =>
    have h1 := hf r (List.mem_cons_self _ _)
    have h2 : ∀ x ∈ rs, '\n' ∉ f x := fun x hx => hf x (List.mem_cons_of_mem _ hx)
    rw [List.flatMap_cons, List.map_cons, ← ih h2]
    unfold rows
    rw [List.append_assoc, List.singleton_append, rowsAux_append _ _ _ h1]
    simp

theorem fmtHex_mem (w v : Nat) : ∀ c ∈ fmtHex w '0' v, c ∈ lowerHexDigits := by
  intro c hc
  unfold fmtHex at hc
  rcases List.mem_append.mp hc with h | h
  · rw [List.eq_of_mem_replicate h]
    simp [lowerHexDigits]
  · exact toHex_mem v c h

theorem hex2_mem (v : Nat) : ∀ c ∈ hex2 v, c ∈ lowerHexDigits := by
  intro c hc
  simp only [hex2, List.mem_cons, List.mem_singleton, List.not_mem_nil, or_false] at hc
  rcases hc with h | h
  · rw [h]; exact hexDigitSpec_mem _ (Nat.mod_lt _ (by decide))
  · rw [h]; exact hexDigitSpec_mem _ (Nat.mod_lt _ (by decide))

theorem specGroup_mem (ch : List Byte) (k : Nat) :
    ∀ c ∈ specGroup ch k, c ∈ lowerHexDigits ∨ c = ' ' := by
  intro c hc
  unfold specGroup at hc
  split at hc
  · simp only [List.mem_append, List.mem_singleton] at hc
    rcases hc with (h | h) | h
    · exact Or.inl (hex2_mem _ c h)
    · exact Or.inl (hex2_mem _ c h)
    · exact Or.inr h
  · simp only [List.mem_append, List.mem_singleton] at hc
    rcases hc with h | h
    · exact Or.inl (hex2_mem _ c h)
    · exact Or.inr h
  · simp only [List.mem_cons, List.mem_singleton, List.not_mem_nil, or_false, or_self] at hc
    exact Or.inr hc

theorem specGroups_mem (ch : List Byte) (r : Nat) :
    ∀ c ∈ specGroups ch r, c ∈ lowerHexDigits ∨ c = ' ' := by
  intro c hc
  unfold specGroups at hc
  rcases List.mem_flatMap.mp hc with ⟨g, _, hg⟩
  exact specGroup_mem _ _ c hg

theorem newline_not_lowerHex : '\n' ∉ lowerHexDigits := by decide

theorem space_not_lowerHex : ' ' ∉ lowerHexDigits := by decide

/-- A row body has no newline inside. -/
theorem rowBody_no_newline (off : List Char) (ch : List Byte) (r : Nat)
    (hoff : ∀ c ∈ off, c ∈ lowerHexDigits) :
    '\n' ∉ off ++ [' '] ++ specGroups ch r := by
  intro h
  simp only [List.mem_append, List.mem_singleton] at h
  rcases h with (h | h) | h
  · exact newline_not_lowerHex (hoff _ h)
  · exact absurd h (by decide)
  · rcases specGroups_mem ch r _ h with h | h
    · exact newline_not_lowerHex h
    · exact absurd h (by decide)

/-- The rows of one call. -/
theorem rows_print_hexdump (buffer : List Byte) (length s : Nat)
    (hlen : length ≤ buffer.length) :
    rows (print_hexdump buffer length s)
      = (List.range (ceilDiv16 length)).map (fun r =>
          fmtHex 8 '0' ((s + 16 * r) % SIZE_MOD) ++ [' '] ++ specGroups (buffer.take length) r) := by
  rw [print_hexdump_eq buffer length s hlen]
  apply rows_flatMap
  intro r _
  exact rowBody_no_newline _ _ _ (fmtHex_mem 8 _)

theorem dropOffsetField_row (off g : List Char) (hoff : ' ' ∉ off) :
    dropOffsetField (off ++ [' '] ++ g) = ' ' :: g := by
  induction off with
  | nil => simp [dropOffsetField, List.dropWhile]
  | cons c cs ih =>
    have hc : c ≠ ' ' := fun h => hoff (by simp [h])
    have hcs : ' ' ∉ cs := fun h => hoff (List.mem_cons_of_mem _ h)
    have := ih hcs
    unfold dropOffsetField at this ⊢
    simp only [List.cons_append, List.dropWhile_cons, bne_iff_ne, ne_eq, hc, not_false_eq_true,
      if_true]
    simpa using this

theorem offsetField_row (off g : List Char) (hoff : ' ' ∉ off) :
    offsetField (off ++ [' '] ++ g) = off := by
  induction off with
  | nil => simp [offsetField, List.takeWhile]
  | cons c cs ih =>
    have hc : c ≠ ' ' := fun h => hoff (by simp [h])
    have hcs : ' ' ∉ cs := fun h => hoff (List.mem_cons_of_mem _ h)
    have := ih hcs
    unfold offsetField at this ⊢
    simp only [List.cons_append, List.takeWhile_cons, bne_iff_ne, ne_eq, hc, not_false_eq_true,
      if_true]
    simpa using this

/-! ## Decoding the byte columns -/

theorem drop_take_two (ch : List Byte) (k : Nat) :
    (ch.drop k).take 2
      = match ch[k]?, ch[k + 1]? with
        | some a, some b => [a, b]
        | some a, none => [a]
        | none, _ => [] := by
  by_cases h1 : k < ch.length
  · rw [List.drop_eq_getElem_cons h1, List.getElem?_eq_getElem h1]
    by_cases h2 : k + 1 < ch.length
    · rw [List.drop_eq_getElem_cons h2, List.getElem?_eq_getElem h2]
      rfl
    · rw [List.drop_eq_nil_of_le (by omega), List.getElem?_eq_none (by omega)]
      rfl
  · rw [List.drop_eq_nil_of_le (by omega), List.getElem?_eq_none (by omega)]
    rfl

theorem filter_hex2 (v : Nat) :
    (hex2 v).filter (fun c => c != ' ' && c != '\n') = hex2 v := by
  apply List.filter_eq_self.mpr
  intro c hc
  have hm := hex2_mem v c hc
  have h1 : c ≠ ' ' := fun h => space_not_lowerHex (h ▸ hm)
  have h2 : c ≠ '\n' := fun h => newline_not_lowerHex (h ▸ hm)
  simp [h1, h2]

/-- Without its spaces a pair is the hex digits of the bytes it shows. -/
theorem filter_specGroup (ch : List Byte) (k : Nat) :
    (specGroup ch k).filter (fun c => c != ' ' && c != '\n')
      = ((ch.drop k).take 2).flatMap (fun v => hex2 v.val) := by
  rw [drop_take_two]
  unfold specGroup
  split <;> simp [List.filter_append, filter_hex2]

theorem take_sixteen (l : List Byte) :
    l.take 16 = l.take 2 ++ (l.drop 2).take 2 ++ (l.drop 4).take 2 ++ (l.drop 6).take 2
      ++ (l.drop 8).take 2 ++ (l.drop 10).take 2 ++ (l.drop 12).take 2 ++ (l.drop 14).take 2 := by
  rw [show 16 = 14 + 2 by rfl, List.take_add, show 14 = 12 + 2 by rfl, List.take_add,
    show 12 = 10 + 2 by rfl, List.take_add, show 10 = 8 + 2 by rfl, List.take_add,
    show 8 = 6 + 2 by rfl, List.take_add, show 6 = 4 + 2 by rfl, List.take_add,
    show 4 = 2 + 2 by rfl, List.take_add]

/-- Without its spaces the byte columns of row `r` are the hex digits of the
bytes `16 r .. 16 r + 15` of the chunk. -/
theorem filter_specGroups (ch : List Byte) (r : Nat) :
    (specGroups ch r).filter (fun c => c != ' ' && c != '\n')
      = ((ch.drop (16 * r)).take 16).flatMap (fun v => hex2 v.val) := by
  unfold specGroups
  rw [show List.range 8 = [0, 1, 2, 3, 4, 5, 6, 7] by decide, take_sixteen]
  simp only [List.flatMap_cons, List.flatMap_nil, List.filter_append, filter_specGroup,
    List.flatMap_append, List.drop_drop, List.append_nil, List.filter_nil, Nat.mul_zero,
    Nat.add_zero, List.append_assoc, Nat.mul_one, Nat.reduceMul, Nat.add_comm, Nat.zero_add]

/-- Cutting a list into consecutive pieces of 16 and joining them gives the
list back. -/
theorem flatMap_pieces (k : Nat) : ∀ l : List Byte, l.length ≤ 16 * k →
    (List.range k).flatMap (fun r => (l.drop (16 * r)).take 16) = l := by
  induction k with
  | zero =>
    intro l hl
    have : l = [] := List.eq_nil_of_length_eq_zero (by omega)
    subst this
    rfl
  | succ k ih =>
    intro l hl
    rw [List.range_succ_eq_map, List.flatMap_cons, List.flatMap_map]
    have h := ih (l.drop 16) (by rw [List.length_drop]; omega)
    have e : (fun r => ((l.drop 16).drop (16 * r)).take 16)
        = (fun r => (l.drop (16 * r.succ)).take 16) := by
      funext r
      simp only [List.drop_drop, Nat.succ_eq_add_one]
      congr 2
      omega
    rw [← e, h]
    simp

theorem decodePairs_hex (l : List Byte) :
    decodePairs (l.flatMap (fun v => hex2 v.val)) = some (l.map (fun v => v.val)) := by
  induction l with
  | nil => rfl
  | cons v vs ih =>
    have h1 : v.val / 16 % 16 < 16 := Nat.mod_lt _ (by decide)
    have h2 : v.val % 16 < 16 := Nat.mod_lt _ (by decide)
    have hv := v.isLt
    rw [List.flatMap_cons]
    show decodePairs (hexDigitSpec (v.val / 16 % 16) :: hexDigitSpec (v.val % 16)
      :: vs.flatMap (fun v => hex2 v.val)) = _
    rw [decodePairs, hexVal_hexDigitSpec _ h1, hexVal_hexDigitSpec _ h2, ih]
    simp only [List.map_cons, Option.some.injEq, List.cons.injEq, and_true]
    omega

/-- Decoding the byte columns of the text of one call gives the first
`length` bytes of the buffer. -/
theorem decodeDump_print_hexdump (buffer : List Byte) (length s : Nat)
    (hlen : length ≤ buffer.length) :
    decodeDump (print_hexdump buffer length s)
      = some ((buffer.take length).map (fun v => v.val)) := by
  unfold decodeDump decodeBytes
  rw [rows_print_hexdump buffer length s hlen, List.flatMap_map, List.filter_flatMap]
  have e : ∀ r, (dropOffsetField (fmtHex 8 '0' ((s + 16 * r) % SIZE_MOD) ++ [' ']
        ++ specGroups (buffer.take length) r)).filter (fun c => c != ' ' && c != '\n')
      = (((buffer.take length).drop (16 * r)).take 16).flatMap (fun v => hex2 v.val) := by
    intro r
    rw [dropOffsetField_row _ _ (fun h => space_not_lowerHex (fmtHex_mem 8 _ _ h))]
    rw [List.filter_cons_of_neg (by simp), filter_specGroups]
  simp only [e]
  rw [← List.flatMap_assoc, flatMap_pieces _ _ (by
    simp only [List.length_take, ceilDiv16]
    omega)]
  exact decodePairs_hex _

/-! ## Runs of `main` -/

theorem toSizeT_lt (v : Int) : toSizeT v < SIZE_MOD := by
  unfold toSizeT SIZE_MOD
  have h1 : 0 ≤ v % (2 ^ 64 : Int) := Int.emod_nonneg _ (by norm_num)
  have h2 : v % (2 ^ 64 : Int) < 2 ^ 64 := Int.emod_lt_of_pos _ (by norm_num)
  omega

/-- A run `PROGRAM FILE` on a file that opens. -/
theorem main_no_limit (fs : String → Option (List Byte)) (prog path : String)
    (content : List Byte) (hpath : path ≠ "-n") (hopen : fs path = some content) :
    main fs [prog, path]
      = ⟨0, callsOutput (readLoop SIZE_MAX content (List.replicate buffer_size 0) 0), []⟩ := by
  simp only [main, List.tail_cons, parseArgs, if_neg hpath, hopen]

/-- A run `PROGRAM -n LEN FILE` on a file that opens. -/
theorem main_limit (fs : String → Option (List Byte)) (prog len path : String)
    (content : List Byte) (hpath : path ≠ "-n") (hopen : fs path = some content) :
    main fs [prog, "-n", len, path]
      = ⟨0, callsOutput (readLoop (toSizeT (atoi len)) content
          (List.replicate buffer_size 0) 0), []⟩ := by
  simp only [main, List.tail_cons, parseArgs, if_neg hpath, hopen, if_true]

/-- A run `PROGRAM FILE -n LEN` on a file that opens. -/
theorem main_limit_after (fs : String → Option (List Byte)) (prog len path : String)
    (content : List Byte) (hpath : path ≠ "-n") (hopen : fs path = some content) :
    main fs [prog, path, "-n", len]
      = ⟨0, callsOutput (readLoop (toSizeT (atoi len)) content
          (List.replicate buffer_size 0) 0), []⟩ := by
  simp only [main, List.tail_cons, parseArgs, if_neg hpath, hopen, if_true]

/-- With limit 0 the loop writes nothing, for a file of any size. -/
theorem readLoop_zero (content buffer : List Byte) :
    callsOutput (readLoop 0 content buffer 0) = [] := by
  by_cases hc : content = []
  · subst hc
    rw [readLoop_nil]
    rfl
  · have hpos : 0 < content.length := List.length_pos.mpr hc
    have hbs : buffer_size = 4096 := rfl
    have hM : SIZE_MOD = 2 ^ 64 := rfl
    have hg : (content.take buffer_size).length = min buffer_size content.length := by simp
    rw [readLoop, dif_neg (by rw [hg, hbs]; omega)]
    simp only [hg, Nat.zero_add]
    have h1 : min buffer_size content.length % SIZE_MOD > 0 := by
      rw [Nat.mod_eq_of_lt (by rw [hbs, hM]; omega), hbs]
      omega
    rw [if_pos h1]
    have h2 : (SIZE_MOD - 0) % SIZE_MOD = 0 := by simp
    simp only [h2, Nat.zero_mod, ge_iff_le, le_refl, if_true]
    rw [callsOutput_cons, callsOutput_nil, List.append_nil]
    exact printRows_of_ge _ _ _ _ (le_refl 0)

theorem atoi_zero : toSizeT (atoi "0") = 0 := by
  decide

/-! ## `atoi` on decimal numerals -/

/-- Claim C1 (round trip without a limit).  When `main` dumps a file with no
`-n` option, dropping the offset field of every output row and decoding the
remaining hex digit pairs in order, spaces and newlines ignored, gives
exactly the content of the file.  The content is any byte sequence whose
length is a `size_t` value: empty, shorter or longer than one read of 4096
bytes. -/
theorem round_trip_no_limit (fs : String → Option (List Byte)) (prog path : String)
    (content : List Byte) (hpath : path ≠ "-n") (hopen : fs path = some content)
    (hsz : content.length < SIZE_MOD) :
    decodeDump (main fs [prog, path]).stdout = some (content.map (fun v => v.val)) := by
  rw [main_no_limit fs prog path content hpath hopen]
  show decodeDump (callsOutput _) = _
  rw [readLoop_output SIZE_MAX (by decide) content _ hsz,
    decodeDump_print_hexdump content _ 0 (Nat.min_le_right _ _),
    Nat.min_eq_right (by unfold SIZE_MAX; unfold SIZE_MOD at hsz; omega), List.take_length]

/-- Instance of `round_trip_no_limit` on the three-byte file. -/
theorem round_trip_no_limit_witness :
    ("f" ≠ "-n" ∧ sampleFs "f" = some [0x41, 0x42, 0x43]
      ∧ ([0x41, 0x42, 0x43] : List Byte).length < SIZE_MOD)
    ∧ decodeDump (main sampleFs ["hexdump", "f"]).stdout = some [0x41, 0x42, 0x43] :=
  ⟨⟨by decide, by decide, by decide⟩,
    round_trip_no_limit sampleFs "hexdump" "f" [0x41, 0x42, 0x43] (by decide) (by decide)
      (by decide)⟩

/-- Claim C2 (row count without a limit).  When `main` dumps a file with no
`-n` option, the number of newline-terminated rows written to standard
output is `ceil(size / 16)`: none for the empty file, and the same formula
when the file is longer than one read of 4096 bytes. -/
theorem row_count_no_limit (fs : String → Option (List Byte)) (prog path : String)
    (content : List Byte) (hpath : path ≠ "-n") (hopen : fs path = some content)
    (hsz : content.length < SIZE_MOD) :
    (rows (main fs [prog, path]).stdout).length = ceilDiv16 content.length := by
  rw [main_no_limit fs prog path content hpath hopen]
  show (rows (callsOutput _)).length = _
  rw [readLoop_output SIZE_MAX (by decide) content _ hsz,
    rows_print_hexdump content _ 0 (Nat.min_le_right _ _),
    Nat.min_eq_right (by unfold SIZE_MAX; unfold SIZE_MOD at hsz; omega),
    List.length_map, List.length_range]

/-- Instance of `row_count_no_limit` on the three-byte file: one row. -/
theorem row_count_no_limit_witness :
    ("f" ≠ "-n" ∧ sampleFs "f" = some [0x41, 0x42, 0x43]
      ∧ ([0x41, 0x42, 0x43] : List Byte).length < SIZE_MOD)
    ∧ (rows (main sampleFs ["hexdump", "f"]).stdout).length = 1 :=
  ⟨⟨by decide, by decide, by decide⟩,
    row_count_no_limit sampleFs "hexdump" "f" [0x41, 0x42, 0x43] (by decide) (by decide)
      (by decide)⟩

/-- Claim C3 (truncation).  For a file and a byte limit `L` not above its
size, the read loop of `main` run with `max_bytes = L` writes exactly
`ceil(L / 16)` rows, and the bytes decoded from their hex pairs are the first
`L` bytes of the file, whatever `L` is relative to 16 and 4096 and whatever
the buffer held before. -/
theorem truncation (content buffer : List Byte) (L : Nat) (hL : L ≤ content.length)
    (hsz : content.length < SIZE_MOD) :
    (rows (callsOutput (readLoop L content buffer 0))).length = ceilDiv16 L
      ∧ decodeDump (callsOutput (readLoop L content buffer 0))
          = some ((content.take L).map (fun v => v.val)) := by
  rw [readLoop_output L (by omega) content buffer hsz, Nat.min_eq_left hL,
    rows_print_hexdump content L 0 hL, decodeDump_print_hexdump content L 0 hL,
    List.length_map, List.length_range]
  exact ⟨rfl, rfl⟩

/-- Instance of `truncation`: the first two of three bytes. -/
theorem truncation_witness :
    (2 ≤ ([0x41, 0x42, 0x43] : List Byte).length
      ∧ ([0x41, 0x42, 0x43] : List Byte).length < SIZE_MOD)
    ∧ (rows (callsOutput (readLoop 2 [0x41, 0x42, 0x43] [] 0))).length = 1
    ∧ decodeDump (callsOutput (readLoop 2 [0x41, 0x42, 0x43] [] 0)) = some [0x41, 0x42] :=
  ⟨⟨by decide, by decide⟩, truncation [0x41, 0x42, 0x43] [] 2 (by decide) (by decide)⟩

/-- Claim C5 (limit 0).  For every file that opens, empty or not, running
`main` with `-n 0`, before or after the file path, writes nothing at all to
standard output and returns exit code 0. -/
theorem limit_zero (fs : String → Option (List Byte)) (prog path : String)
    (content : List Byte) (hpath : path ≠ "-n") (hopen : fs path = some content) :
    (main fs [prog, "-n", "0", path]).stdout = []
      ∧ (main fs [prog, "-n", "0", path]).exitCode = 0
      ∧ (main fs [prog, path, "-n", "0"]).stdout = []
      ∧ (main fs [prog, path, "-n", "0"]).exitCode = 0 := by
  rw [main_limit fs prog "0" path content hpath hopen,
    main_limit_after fs prog "0" path content hpath hopen, atoi_zero]
  exact ⟨readLoop_zero _ _, rfl, readLoop_zero _ _, rfl⟩

/-- Instance of `limit_zero` on the three-byte file. -/
theorem limit_zero_witness :
    ("f" ≠ "-n" ∧ sampleFs "f" = some [0x41, 0x42, 0x43])
    ∧ ((main sampleFs ["hexdump", "-n", "0", "f"]).stdout = []
      ∧ (main sampleFs ["hexdump", "-n", "0", "f"]).exitCode = 0
      ∧ (main sampleFs ["hexdump", "f", "-n", "0"]).stdout = []
      ∧ (main sampleFs ["hexdump", "f", "-n", "0"]).exitCode = 0) :=
  ⟨⟨by decide, by decide⟩,
    limit_zero sampleFs "hexdump" "f" [0x41, 0x42, 0x43] (by decide) (by decide)⟩

/-- Claim C6 (row grammar).  For a chunk of `n` bytes dumped at start offset
`s` with `s + n ≤ 2 ^ 32`, `print_hexdump` writes exactly `ceil(n / 16)`
rows, and row `r` is the value `s + 16 r` as 8 zero-padded lowercase hex
digits, a space, then for each of the 8 byte pairs 4 hex digits and a space
when both bytes exist, 2 hex digits and a space when only the first does,
5 spaces when neither does, then a newline.  The bytes `41 42 43` at offset
0 give the single row `00000000 4142 43 ` followed by six groups of 5 spaces
and a newline, and a chunk of exactly 16 bytes gives exactly one row whose 8
groups all have 4 hex digits. -/
theorem row_grammar (chunk : List Byte) (s : Nat) (hs : s + chunk.length ≤ 2 ^ 32) :
    print_hexdump chunk chunk.length s
        = (List.range (ceilDiv16 chunk.length)).flatMap (fun r => specRow chunk s r ++ ['\n'])
      ∧ rows (print_hexdump chunk chunk.length s)
          = (List.range (ceilDiv16 chunk.length)).map (specRow chunk s)
      ∧ (rows (print_hexdump chunk chunk.length s)).length = ceilDiv16 chunk.length
      ∧ print_hexdump [0x41, 0x42, 0x43] 3 0
          = "00000000 4142 43 ".toList ++ List.replicate 30 ' ' ++ ['\n']
      ∧ (chunk.length = 16 →
          rows (print_hexdump chunk chunk.length s)
            = [hex8 s ++ [' '] ++ (List.range 8).flatMap (fun g =>
                hex2 (chunk.getD (2 * g) 0).val ++ hex2 (chunk.getD (2 * g + 1) 0).val
                  ++ [' '])]) := by
  have hoff : ∀ r ∈ List.range (ceilDiv16 chunk.length),
      fmtHex 8 '0' ((s + 16 * r) % SIZE_MOD) ++ [' '] ++ specGroups (chunk.take chunk.length) r
        = specRow chunk s r := by
    intro r hr
    have hr' : r < ceilDiv16 chunk.length := List.mem_range.mp hr
    unfold ceilDiv16 at hr'
    have hlt : s + 16 * r < 2 ^ 32 := by omega
    rw [Nat.mod_eq_of_lt (by unfold SIZE_MOD; omega), fmtHex_word _ hlt, List.take_length]
    rfl
  have h1 : print_hexdump chunk chunk.length s
      = (List.range (ceilDiv16 chunk.length)).flatMap (fun r => specRow chunk s r ++ ['\n']) := by
    rw [print_hexdump_eq chunk chunk.length s (le_refl _)]
    apply List.flatMap_congr
    intro r hr
    rw [hoff r hr]
  have h2 : rows (print_hexdump chunk chunk.length s)
      = (List.range (ceilDiv16 chunk.length)).map (specRow chunk s) := by
    rw [rows_print_hexdump chunk chunk.length s (le_refl _)]
    apply List.map_congr_left
    intro r hr
    rw [hoff r hr]
  refine ⟨h1, h2, ?_, ?_, ?_⟩
  · rw [h2, List.length_map, List.length_range]
  · rw [print_hexdump_eq [0x41, 0x42, 0x43] 3 0 (by decide),
      show ceilDiv16 3 = 1 by decide, show List.range 1 = [0] by decide]
    simp only [List.flatMap_cons, List.flatMap_nil, List.append_nil]
    rw [show (0 + 16 * 0) % SIZE_MOD = 0 by decide, fmtHex_word 0 (by norm_num)]
    decide
  · intro h16
    rw [h2, h16, show ceilDiv16 16 = 1 by decide, show List.range 1 = [0] by decide]
    simp only [List.map_cons, List.map_nil, specRow, specGroups, Nat.mul_zero, Nat.add_zero,
      Nat.zero_add]
    congr 2
    apply List.flatMap_congr
    intro g hg
    have hg' : g < 8 := List.mem_range.mp hg
    unfold specGroup
    rw [List.getElem?_eq_getElem (by omega), List.getElem?_eq_getElem (by omega),
      List.getD_eq_getElem?_getD, List.getD_eq_getElem?_getD,
      List.getElem?_eq_getElem (by omega), List.getElem?_eq_getElem (by omega)]
    rfl

/-- Instance of `row_grammar` on a chunk of sixteen bytes at offset 32. -/
theorem row_grammar_witness :
    (32 + (List.replicate 16 (0x41 : Byte)).length ≤ 2 ^ 32)
    ∧ (print_hexdump (List.replicate 16 0x41) (List.replicate 16 (0x41 : Byte)).length 32
        = (List.range (ceilDiv16 (List.replicate 16 (0x41 : Byte)).length)).flatMap
            (fun r => specRow (List.replicate 16 0x41) 32 r ++ ['\n'])
      ∧ rows (print_hexdump (List.replicate 16 0x41) (List.replicate 16 (0x41 : Byte)).length 32)
          = (List.range (ceilDiv16 (List.replicate 16 (0x41 : Byte)).length)).map
              (specRow (List.replicate 16 0x41) 32)
      ∧ (rows (print_hexdump (List.replicate 16 0x41)
            (List.replicate 16 (0x41 : Byte)).length 32)).length
          = ceilDiv16 (List.replicate 16 (0x41 : Byte)).length
      ∧ print_hexdump [0x41, 0x42, 0x43] 3 0
          = "00000000 4142 43 ".toList ++ List.replicate 30 ' ' ++ ['\n']
      ∧ ((List.replicate 16 (0x41 : Byte)).length = 16 →
          rows (print_hexdump (List.replicate 16 0x41) (List.replicate 16 (0x41 : Byte)).length 32)
            = [hex8 32 ++ [' '] ++ (List.range 8).flatMap (fun g =>
                hex2 ((List.replicate 16 (0x41 : Byte)).getD (2 * g) 0).val
                  ++ hex2 ((List.replicate 16 (0x41 : Byte)).getD (2 * g + 1) 0).val
                  ++ [' '])])) :=
  ⟨by decide, row_grammar (List.replicate 16 0x41) 32 (by decide)⟩

/-! ## The offset field -/

theorem readHex_fmtHex (w v : Nat) : readHex (fmtHex w '0' v) 0 = some v := by
  unfold fmtHex
  rw [readHex_zeros, readHex_toHex]

/-- Claim C8 as stated fails: in the dump of 17 bytes the first row has 49
characters before its newline and the final row, which holds one byte, has
47; the pair whose second byte is missing is written as 2 digits and a
space, 3 characters where every other pair takes 5. -/
theorem odd_final_row_is_shorter :
    (rows (print_hexdump (List.replicate 17 0x41) 17 0)).map List.length = [49, 47] := by
  rw [rows_print_hexdump _ _ _ (by decide), show ceilDiv16 17 = 2 by decide,
    show List.range 2 = [0, 1] by decide]
  simp only [List.map_cons, List.map_nil]
  rw [show (0 + 16 * 0) % SIZE_MOD = 0 by decide, show (0 + 16 * 1) % SIZE_MOD = 16 by decide,
    fmtHex_word 0 (by norm_num), fmtHex_word 16 (by norm_num)]
  decide

theorem specGroup_length (ch : List Byte) (k : Nat) :
    (specGroup ch k).length = if k + 1 = ch.length then 3 else 5 := by
  unfold specGroup
  by_cases h1 : k < ch.length
  · rw [List.getElem?_eq_getElem h1]
    by_cases h2 : k + 1 < ch.length
    · rw [List.getElem?_eq_getElem h2, if_neg (by omega)]
      rfl
    · rw [List.getElem?_eq_none (by omega), if_pos (by omega)]
      rfl
  · rw [List.getElem?_eq_none (by omega), if_neg (by omega)]
    rfl

/-- The byte columns of row `r` take 40 characters, or 38 when the row holds
an odd number of bytes. -/
theorem specGroups_length (ch : List Byte) (r : Nat) (hr : 16 * r < ch.length) :
    (specGroups ch r).length = if min 16 (ch.length - 16 * r) % 2 = 0 then 40 else 38 := by
  unfold specGroups
  rw [show List.range 8 = [0, 1, 2, 3, 4, 5, 6, 7] by decide]
  simp only [List.flatMap_cons, List.flatMap_nil, List.length_append, List.length_nil,
    specGroup_length]
  split_ifs <;> omega

/-- Claim C8, amended.  For every chunk of length `n ≥ 1` dumped at offsets
below `2 ^ 32`, every row that holds an even number of bytes, which every
full row and a short final row of 2, 4, .., 14 bytes does, has the number of
characters of a full 16-byte row: 8 offset digits, a space, 8 groups of 5
characters and a newline, 50 in all.  A final row that holds an odd number
of bytes has 48: its last pair is written as 2 digits and a space. -/
theorem row_width (chunk : List Byte) (s : Nat) (hs : s + chunk.length ≤ 2 ^ 32) (r : Nat)
    (hr : r < ceilDiv16 chunk.length) :
    ∃ row, (rows (print_hexdump chunk chunk.length s))[r]? = some row
      ∧ row.length + 1 = if min 16 (chunk.length - 16 * r) % 2 = 0 then 50 else 48 := by
  have hr' : 16 * r < chunk.length := by
    unfold ceilDiv16 at hr
    omega
  refine ⟨hex8 (s + 16 * r) ++ [' '] ++ specGroups chunk r, ?_, ?_⟩
  · have hmod : (s + 16 * r) % SIZE_MOD = s + 16 * r :=
      Nat.mod_eq_of_lt (by unfold SIZE_MOD; omega)
    rw [rows_print_hexdump chunk chunk.length s (le_refl _), List.getElem?_map,
      List.getElem?_range hr, List.take_length]
    show some (fmtHex 8 '0' ((s + 16 * r) % SIZE_MOD) ++ [' '] ++ specGroups chunk r) = _
    rw [hmod, fmtHex_word _ (by omega)]
  · rw [List.length_append, List.length_append, specGroups_length chunk r hr']
    show 8 + 1 + _ + 1 = _
    split_ifs <;> rfl

/-- Instance of `row_width`: the final row of a 17-byte chunk, one byte. -/
theorem row_width_witness :
    (0 + (List.replicate 17 (0x41 : Byte)).length ≤ 2 ^ 32
      ∧ 1 < ceilDiv16 (List.replicate 17 (0x41 : Byte)).length)
    ∧ ∃ row, (rows (print_hexdump (List.replicate 17 0x41)
          (List.replicate 17 (0x41 : Byte)).length 0))[1]? = some row
        ∧ row.length + 1
            = if min 16 ((List.replicate 17 (0x41 : Byte)).length - 16 * 1) % 2 = 0 then 50
              else 48 :=
  ⟨⟨by decide, by decide⟩, row_width (List.replicate 17 0x41) 0 (by decide) 1 (by decide)⟩

/-! ## Bytes as hex -/

/-- One iteration of the read loop when the stream still holds bytes, the
running offset is within the limit and the file size is a `size_t` value:
none of the `size_t` operations wraps, and the length handed over is the
smaller of the bytes read and the room left below the limit. -/
theorem readLoop_step (L : Nat) (hL : L < SIZE_MOD) (rest buffer : List Byte) (off : Nat)
    (hrest : rest ≠ []) (hoff : off ≤ L) (hsz : off + rest.length < SIZE_MOD) :
    readLoop L rest buffer off
      = ⟨rest.take buffer_size ++ buffer.drop (min buffer_size rest.length),
          min buffer_size rest.length, min (min buffer_size rest.length) (L - off), off⟩
        :: (if L ≤ off + min (min buffer_size rest.length) (L - off) then []
            else readLoop L (rest.drop buffer_size)
              (rest.take buffer_size ++ buffer.drop (min buffer_size rest.length))
              (off + min (min buffer_size rest.length) (L - off))) := by
  have hpos : 0 < rest.length := List.length_pos.mpr hrest
  have hbs : buffer_size = 4096 := rfl
  have hM : SIZE_MOD = 2 ^ 64 := rfl
  have hg : (rest.take buffer_size).length = min buffer_size rest.length := by simp
  rw [readLoop, dif_neg (by rw [hg, hbs]; omega)]
  simp only [hg]
  have hg2 : min buffer_size rest.length ≤ rest.length := Nat.min_le_right _ _
  generalize min buffer_size rest.length = g at hg2 ⊢
  have hbr : (if (off + g) % SIZE_MOD > L then (L + SIZE_MOD - off) % SIZE_MOD else g)
      = min g (L - off) := by
    rw [Nat.mod_eq_of_lt (by omega)]
    by_cases hc : off + g > L
    · rw [if_pos hc, show L + SIZE_MOD - off = (L - off) + SIZE_MOD by omega,
        Nat.add_mod_right, Nat.mod_eq_of_lt (by omega)]
      omega
    · rw [if_neg hc]
      omega
  rw [hbr, Nat.mod_eq_of_lt (by omega)]

/-- Invariant of the read loop, from any iteration on: every call stays
within the limit and within the bytes read, starts at or after the current
offset, and each call starts where the one before it ended. -/
theorem readLoop_invariant (L : Nat) (hL : L < SIZE_MOD) (n : Nat) :
    ∀ (rest buffer : List Byte) (off : Nat), rest.length ≤ n → off ≤ L →
      off + rest.length < SIZE_MOD →
      (∀ c ∈ readLoop L rest buffer off,
          c.offset + c.bytes_read ≤ L ∧ c.bytes_read ≤ c.gcount ∧ off ≤ c.offset)
        ∧ List.Chain' (fun c1 c2 => c2.offset = offsetAfter c1) (readLoop L rest buffer off)
        ∧ (∀ c, (readLoop L rest buffer off).head? = some c → c.offset = off) := by
  induction n with
  | zero =>
    intro rest buffer off hn _ _
    have : rest = [] := List.eq_nil_of_length_eq_zero (by omega)
    subst this
    rw [readLoop_nil]
    simp
  | succ n ih =>
    intro rest buffer off hn hoff hsz
    by_cases hrest : rest = []
    · subst hrest
      rw [readLoop_nil]
      simp
    · have hpos : 0 < rest.length := List.length_pos.mpr hrest
      have hbs : buffer_size = 4096 := rfl
      rw [readLoop_step L hL rest buffer off hrest hoff hsz]
      have hg2 : min buffer_size rest.length ≤ rest.length := Nat.min_le_right _ _
      have hg3 : 0 < min buffer_size rest.length := by rw [hbs]; omega
      have hg4 : min buffer_size rest.length ≤ buffer_size := Nat.min_le_left _ _
      generalize min buffer_size rest.length = g at hg2 hg3 hg4 ⊢
      have hafter : offsetAfter ⟨rest.take buffer_size ++ buffer.drop g, g, min g (L - off), off⟩
          = off + min g (L - off) := by
        show (off + min g (L - off)) % SIZE_MOD = off + min g (L - off)
        exact Nat.mod_eq_of_lt (by omega)
      by_cases hstop : L ≤ off + min g (L - off)
      · rw [if_pos hstop]
        refine ⟨?_, by simp, ?_⟩
        · intro c hc
          simp only [List.mem_singleton] at hc
          subst hc
          exact ⟨by simp only []; omega, by simp only []; omega, le_refl _⟩
        · intro c hc
          simp only [List.head?_cons, Option.some.injEq] at hc
          subst hc
          rfl
      · rw [if_neg hstop]
        have hmin : min g (L - off) = g := by omega
        have hrec := ih (rest.drop buffer_size) (rest.take buffer_size ++ buffer.drop g)
          (off + min g (L - off)) (by rw [List.length_drop, hbs]; omega) (by omega)
          (by rw [List.length_drop]; omega)
        obtain ⟨h1, h2, h3⟩ := hrec
        refine ⟨?_, ?_, ?_⟩
        · intro c hc
          rcases List.mem_cons.mp hc with hc | hc
          · subst hc
            exact ⟨by simp only []; omega, by simp only []; omega, le_refl _⟩
          · have := h1 c hc
            exact ⟨this.1, this.2.1, by omega⟩
        · apply List.Chain'.cons'
          · exact h2
          · intro c hc
            rw [hafter]
            exact h3 c hc
        · intro c hc
          simp only [List.head?_cons, Option.some.injEq] at hc
          subst hc
          rfl

/-- Claim C10 (limit invariant of the driver loop).  For every file and
every limit `L`, in every iteration of the read loop the running offset plus
the possibly clamped length handed to `print_hexdump` is at most `L`; so the
running offset after the iteration is at most `L`, it is not below the
offset before the iteration, the length handed over is at most the number
of bytes read, and the iterations start at offset 0 and each starts at the
offset the one before it left. -/
theorem limit_invariant (L : Nat) (hL : L ≤ SIZE_MAX) (content buffer : List Byte)
    (hsz : content.length < SIZE_MOD) :
    (∀ c ∈ readLoop L content buffer 0,
        c.offset + c.bytes_read ≤ L ∧ offsetAfter c ≤ L ∧ c.offset ≤ offsetAfter c
          ∧ c.bytes_read ≤ c.gcount)
      ∧ List.Chain' (fun c1 c2 => c2.offset = offsetAfter c1) (readLoop L content buffer 0)
      ∧ (∀ c, (readLoop L content buffer 0).head? = some c → c.offset = 0) := by
  have hL' : L < SIZE_MOD := by unfold SIZE_MAX at hL; unfold SIZE_MOD; omega
  obtain ⟨h1, h2, h3⟩ := readLoop_invariant L hL' content.length content buffer 0 (le_refl _)
    (Nat.zero_le _) (by omega)
  refine ⟨?_, h2, h3⟩
  intro c hc
  obtain ⟨ha, hb, _⟩ := h1 c hc
  have hafter : offsetAfter c = c.offset + c.bytes_read := by
    unfold offsetAfter
    exact Nat.mod_eq_of_lt (by omega)
  rw [hafter]
  exact ⟨ha, ha, by omega, hb⟩

/-- Instance of `limit_invariant`: limit 2 on the three-byte file. -/
theorem limit_invariant_witness :
    (2 ≤ SIZE_MAX ∧ ([0x41, 0x42, 0x43] : List Byte).length < SIZE_MOD)
    ∧ ((∀ c ∈ readLoop 2 [0x41, 0x42, 0x43] [] 0,
          c.offset + c.bytes_read ≤ 2 ∧ offsetAfter c ≤ 2 ∧ c.offset ≤ offsetAfter c
            ∧ c.bytes_read ≤ c.gcount)
      ∧ List.Chain' (fun c1 c2 => c2.offset = offsetAfter c1)
          (readLoop 2 [0x41, 0x42, 0x43] [] 0)
      ∧ (∀ c, (readLoop 2 [0x41, 0x42, 0x43] [] 0).head? = some c → c.offset = 0)) :=
  ⟨⟨by decide, by decide⟩, limit_invariant 2 (by decide) [0x41, 0x42, 0x43] [] (by decide)⟩

/-! ## Argument parsing against the roles of the tokens -/

theorem roles_option (len : String) (rest : List String) :
    roles ("-n" :: len :: rest) = Role.option :: Role.value :: roles rest := by
  simp [roles, rolesFrom]

theorem roles_path (a : String) (rest : List String) (ha : a ≠ "-n") :
    roles (a :: rest) = Role.path :: roles rest := by
  simp [roles, rolesFrom, ha]

theorem tokensWithRole_option (r : Role) (len : String) (rest : List String) :
    tokensWithRole r ("-n" :: len :: rest)
      = (if Role.option = r then ["-n"] else []) ++ (if Role.value = r then [len] else [])
          ++ tokensWithRole r rest := by
  unfold tokensWithRole
  rw [roles_option]
  by_cases h1 : Role.option = r <;> by_cases h2 : Role.value = r <;>
    simp [List.zip_cons_cons, List.filter_cons, h1, h2]

theorem tokensWithRole_path (r : Role) (a : String) (rest : List String) (ha : a ≠ "-n") :
    tokensWithRole r (a :: rest)
      = (if Role.path = r then [a] else []) ++ tokensWithRole r rest := by
  unfold tokensWithRole
  rw [roles_path a rest ha]
  by_cases h1 : Role.path = r <;> simp [List.zip_cons_cons, List.filter_cons, h1]

theorem lastLimit_option (len : String) (rest : List String) (current : Nat) :
    lastLimit ("-n" :: len :: rest) current = lastLimit rest (toSizeT (atoi len)) := by
  unfold lastLimit lenValues
  rw [tokensWithRole_option]
  simp only [reduceCtorEq, if_false, if_true, List.nil_append, List.singleton_append,
    List.getLast?_cons]
  cases (tokensWithRole Role.value rest).getLast? <;> rfl

theorem lastLimit_path (a : String) (rest : List String) (current : Nat) (ha : a ≠ "-n") :
    lastLimit (a :: rest) current = lastLimit rest current := by
  unfold lastLimit lenValues
  rw [tokensWithRole_path _ a rest ha]
  simp only [reduceCtorEq, if_false, List.nil_append]

theorem lastPath_option (len : String) (rest : List String) (current : Option String) :
    lastPath ("-n" :: len :: rest) current = lastPath rest current := by
  unfold lastPath filePaths
  rw [tokensWithRole_option]
  simp only [reduceCtorEq, if_false, List.nil_append]

theorem lastPath_path (a : String) (rest : List String) (current : Option String)
    (ha : a ≠ "-n") : lastPath (a :: rest) current = lastPath rest (some a) := by
  unfold lastPath filePaths
  rw [tokensWithRole_path _ a rest ha]
  simp only [if_true, List.singleton_append, List.getLast?_cons]
  cases (tokensWithRole Role.path rest).getLast? <;> rfl

theorem danglingOption_option (len : String) (rest : List String) :
    danglingOption ("-n" :: len :: rest) = danglingOption rest := by
  unfold danglingOption
  rw [roles_option]
  cases h : roles rest with
  | nil => simp
  | cons r rs => simp

theorem danglingOption_path (a b : String) (rest : List String) (ha : a ≠ "-n") :
    danglingOption (a :: b :: rest) = danglingOption (b :: rest) := by
  unfold danglingOption
  rw [roles_path a _ ha]
  cases h : roles (b :: rest) with
  | nil => simp [roles, rolesFrom] at h; split at h <;> simp at h
  | cons r rs => simp

/-- The argument loop of `main` computes what the roles of the tokens say:
it returns early exactly when an option is the last argument, and otherwise
ends with the limit of the last `LEN` and with the last file path. -/
theorem parseArgs_eq_roles (n : Nat) :
    ∀ (args : List String) (max_bytes : Nat) (file_path : Option String), args.length ≤ n →
      parseArgs args max_bytes file_path
        = if danglingOption args then none
          else some (lastLimit args max_bytes, lastPath args file_path) := by
  induction n with
  | zero =>
    intro args mb fp hn
    have : args = [] := List.eq_nil_of_length_eq_zero (by omega)
    subst this
    rfl
  | succ n ih =>
    intro args mb fp hn
    match args, hn with
    | [], _ => rfl
    | [a], _ =>
      by_cases ha : a = "-n"
      · subst ha
        rfl
      · rw [parseArgs, if_neg ha, lastLimit_path a [] mb ha, lastPath_path a [] fp ha]
        have hd : danglingOption [a] = false := by
          simp [danglingOption, roles, rolesFrom, ha]
        rw [hd]
        rfl
    | a :: b :: rest, hn =>
      by_cases ha : a = "-n"
      · subst ha
        rw [parseArgs, if_pos rfl, ih rest _ fp (by simp at hn; omega), danglingOption_option,
          lastLimit_option, lastPath_option]
      · rw [parseArgs, if_neg ha, ih (b :: rest) mb (some a) (by simp at hn ⊢; omega),
          danglingOption_path a b rest ha, lastLimit_path a _ mb ha, lastPath_path a _ fp ha]

/-- A run of `main` in terms of the roles of its arguments. -/
theorem main_eq_roles (fs : String → Option (List Byte)) (prog : String) (args : List String) :
    main fs (prog :: args)
      = if danglingOption args then ⟨1, [], missingLengthMessage⟩
        else match (filePaths args).getLast? with
          | none => ⟨1, [], usageMessage prog⟩
          | some p =>
            match fs p with
            | none => ⟨1, [], openFailureMessage p⟩
            | some content =>
              ⟨0, callsOutput (readLoop (lastLimit args SIZE_MAX) content
                (List.replicate buffer_size 0) 0), []⟩ := by
  unfold main
  rw [List.tail_cons, parseArgs_eq_roles args.length args SIZE_MAX none (le_refl _)]
  by_cases hd : danglingOption args = true
  · rw [if_pos hd, if_pos hd]
    rfl
  · rw [if_neg hd, if_neg hd]
    unfold lastPath
    cases hp : (filePaths args).getLast? with
    | none => rfl
    | some p =>
      simp only []
      cases fs p <;> rfl

theorem exitCode_main (fs : String → Option (List Byte)) (prog : String) (args : List String) :
    (main fs (prog :: args)).exitCode
      = if danglingOption args = true ∨ filePaths args = []
            ∨ ∃ p, (filePaths args).getLast? = some p ∧ fs p = none
        then 1 else 0 := by
  rw [main_eq_roles]
  by_cases hd : danglingOption args = true
  · rw [if_pos hd, if_pos (Or.inl hd)]
  · rw [if_neg hd]
    cases hp : (filePaths args).getLast? with
    | none =>
      have he : filePaths args = [] := List.getLast?_eq_none_iff.mp hp
      simp [he]
    | some p =>
      have hne : filePaths args ≠ [] := by
        intro he
        rw [he] at hp
        simp at hp
      cases hf : fs p with
      | none => simp [hd, hf]
      | some content => simp [hd, hf, hne]

/-! ## Exit codes and error paths -/

/-- Claim C11 as stated fails: in the run `hexdump f -n -n` the last
argument is `-n` and nothing follows it, yet the run returns 0 when `f`
opens: the second `-n` was consumed as the `LEN` of the first. -/
theorem last_token_option_exit_zero :
    (["f", "-n", "-n"] : List String).getLast? = some "-n"
      ∧ sampleFs "f" = some [0x41, 0x42, 0x43]
      ∧ (main sampleFs ["hexdump", "f", "-n", "-n"]).exitCode = 0 := by
  refine ⟨by decide, by decide, ?_⟩
  rw [main_limit_after sampleFs "hexdump" "-n" "f" [0x41, 0x42, 0x43] (by decide) (by decide)]

/-- Claim C11, amended.  For every argument vector and file system, `main`
returns 1 if and only if an option `-n` (a `-n` that is not itself the
`LEN` of the `-n` before it) is the last argument, or no file path is
supplied, or the last file path supplied does not open; in every other case
it returns 0. -/
theorem exit_code_characterisation (fs : String → Option (List Byte)) (prog : String)
    (args : List String) :
    ((main fs (prog :: args)).exitCode = 1 ↔
        (danglingOption args = true ∨ filePaths args = []
          ∨ ∃ p, (filePaths args).getLast? = some p ∧ fs p = none))
      ∧ (¬ (danglingOption args = true ∨ filePaths args = []
            ∨ ∃ p, (filePaths args).getLast? = some p ∧ fs p = none) →
          (main fs (prog :: args)).exitCode = 0) := by
  rw [exitCode_main]
  by_cases h : danglingOption args = true ∨ filePaths args = []
      ∨ ∃ p, (filePaths args).getLast? = some p ∧ fs p = none
  · rw [if_pos h]
    exact ⟨⟨fun _ => h, fun _ => rfl⟩, fun hn => absurd h hn⟩
  · rw [if_neg h]
    exact ⟨⟨fun h0 => absurd h0 (by decide), fun h1 => absurd h1 h⟩, fun _ => rfl⟩

theorem pairs_roles (lens : List String) :
    danglingOption (lens.flatMap (fun len => ["-n", len])) = false
      ∧ filePaths (lens.flatMap (fun len => ["-n", len])) = [] := by
  induction lens with
  | nil => exact ⟨by decide, by decide⟩
  | cons len rest ih =>
    rw [List.flatMap_cons]
    show danglingOption ("-n" :: len :: rest.flatMap (fun len => ["-n", len])) = false
      ∧ filePaths ("-n" :: len :: rest.flatMap (fun len => ["-n", len])) = []
    rw [danglingOption_option]
    unfold filePaths at ih ⊢
    rw [tokensWithRole_option, ih.2]
    exact ⟨ih.1, by simp⟩

/-- Claim C12 (no file path).  For every argument vector that supplies no
file path, that is no arguments at all or only `-n LEN` pairs, `main`
returns exit code 1, writes nothing to standard output and writes the usage
message, which names the program, to the error stream. -/
theorem missing_file_path (fs : String → Option (List Byte)) (prog : String)
    (lens : List String) :
    (main fs (prog :: lens.flatMap (fun len => ["-n", len]))).exitCode = 1
      ∧ (main fs (prog :: lens.flatMap (fun len => ["-n", len]))).stdout = []
      ∧ (main fs (prog :: lens.flatMap (fun len => ["-n", len]))).stderr = usageMessage prog
      ∧ main fs [prog] = ⟨1, [], usageMessage prog⟩ := by
  have h := pairs_roles lens
  have hm : main fs (prog :: lens.flatMap (fun len => ["-n", len]))
      = ⟨1, [], usageMessage prog⟩ := by
    rw [main_eq_roles, h.1, h.2]
    rfl
  rw [hm]
  exact ⟨rfl, rfl, rfl, rfl⟩

/-- Claim C13 (file that does not open).  For every well-formed argument
vector, one in which no option lacks its value and a file path is supplied,
whose file path does not open, `main` returns exit code 1, writes nothing to
standard output, and the message it writes to the error stream contains the
file path exactly as given. -/
theorem open_failure (fs : String → Option (List Byte)) (prog path : String)
    (args : List String) (hwf : danglingOption args = false)
    (hp : (filePaths args).getLast? = some path) (hopen : fs path = none) :
    (main fs (prog :: args)).exitCode = 1
      ∧ (main fs (prog :: args)).stdout = []
      ∧ (main fs (prog :: args)).stderr = openFailureMessage path
      ∧ path.toList <:+: (main fs (prog :: args)).stderr := by
  have hm : main fs (prog :: args) = ⟨1, [], openFailureMessage path⟩ := by
    rw [main_eq_roles, hwf, hp]
    simp only [hopen]
    rfl
  rw [hm]
  exact ⟨rfl, rfl, rfl, ⟨"Error: Could not open file ".toList, ['\n'], rfl⟩⟩

/-- Instance of `open_failure`: `hexdump -n 4 missing` where only `f`
exists. -/
theorem open_failure_witness :
    (danglingOption ["-n", "4", "missing"] = false
      ∧ (filePaths ["-n", "4", "missing"]).getLast? = some "missing"
      ∧ sampleFs "missing" = none)
    ∧ ((main sampleFs ("hexdump" :: ["-n", "4", "missing"])).exitCode = 1
      ∧ (main sampleFs ("hexdump" :: ["-n", "4", "missing"])).stdout = []
      ∧ (main sampleFs ("hexdump" :: ["-n", "4", "missing"])).stderr
          = openFailureMessage "missing"
      ∧ "missing".toList <:+: (main sampleFs ("hexdump" :: ["-n", "4", "missing"])).stderr) :=
  ⟨⟨by decide, by decide, by decide⟩,
    open_failure sampleFs "hexdump" "missing" ["-n", "4", "missing"] (by decide) (by decide)
      (by decide)⟩

/-- Claim C14 as stated fails: in the run `hexdump f -n -n` the token `-n`
is the final argument and nothing follows it, yet the run returns 0 and
writes no error when `f` opens, and it does open the file: when `f` does
not open the same run reports that. -/
theorem final_token_option_opens_file :
    (["f", "-n", "-n"] : List String).getLast? = some "-n"
      ∧ main sampleFs ["hexdump", "f", "-n", "-n"] = ⟨0, [], []⟩
      ∧ main (fun _ => none) ["hexdump", "f", "-n", "-n"] = ⟨1, [], openFailureMessage "f"⟩ := by
  refine ⟨by decide, ?_, ?_⟩
  · rw [main_limit_after sampleFs "hexdump" "-n" "f" [0x41, 0x42, 0x43] (by decide) (by decide),
      show toSizeT (atoi "-n") = 0 by decide, readLoop_zero]
  · rw [main_eq_roles, show danglingOption ["f", "-n", "-n"] = false by decide,
      show (filePaths ["f", "-n", "-n"]).getLast? = some "f" by decide]
    rfl

/-- Claim C14, amended.  For every argument vector in which an option `-n`
(a `-n` that is not itself the `LEN` of the `-n` before it) is the final
argument, `main` returns exit code 1 with the message that `-n` requires a
length, writes nothing to standard output and opens no file: the result is
the same for every file system, also when a file path that opens precedes
the `-n`. -/
theorem missing_length (fs : String → Option (List Byte)) (prog : String)
    (args : List String) (hd : danglingOption args = true) :
    main fs (prog :: args) = ⟨1, [], missingLengthMessage⟩
      ∧ (main fs (prog :: args)).exitCode ≠ 0
      ∧ (main fs (prog :: args)).stdout = []
      ∧ ∀ fs2 : String → Option (List Byte), main fs2 (prog :: args) = main fs (prog :: args) := by
  have hm : ∀ g : String → Option (List Byte),
      main g (prog :: args) = ⟨1, [], missingLengthMessage⟩ := by
    intro g
    rw [main_eq_roles, if_pos hd]
  rw [hm fs]
  exact ⟨rfl, by decide, rfl, fun fs2 => hm fs2⟩

/-- Instance of `missing_length`: `hexdump f -n` where `f` opens. -/
theorem missing_length_witness :
    danglingOption ["f", "-n"] = true
    ∧ (main sampleFs ("hexdump" :: ["f", "-n"]) = ⟨1, [], missingLengthMessage⟩
      ∧ (main sampleFs ("hexdump" :: ["f", "-n"])).exitCode ≠ 0
      ∧ (main sampleFs ("hexdump" :: ["f", "-n"])).stdout = []
      ∧ ∀ fs2 : String → Option (List Byte),
          main fs2 ("hexdump" :: ["f", "-n"]) = main sampleFs ("hexdump" :: ["f", "-n"])) :=
  ⟨by decide, missing_length sampleFs "hexdump" ["f", "-n"] (by decide)⟩

/-! ## The value of `LEN` -/

theorem digitsValue_no_digit (t : List Char)
    (h : (!(t.head?.map Char.isDigit).getD false) = true) : digitsValue t 0 = 0 := by
  cases t with
  | nil => rfl
  | cons c cs =>
    have hc : c.isDigit = false := by simpa using h
    rw [digitsValue, hc]
    rfl

/-- The call `atoi` gives 0 for an argument without a leading integer. -/
theorem atoi_nonNumeric (len : String) (h : nonNumeric len = true) : atoi len = 0 := by
  unfold nonNumeric at h
  unfold atoi strtol
  generalize len.toList.dropWhile isspace = t at h ⊢
  split at h <;> simp only [digitsValue_no_digit _ h] <;> decide

/-- Claim C15 (non-numeric `LEN`).  For every `LEN` argument without a
leading decimal integer after optional white space, such as `abc`, `main`
accepts it without error and runs with limit 0: for every file that opens it
writes no rows, writes nothing to the error stream and returns exit code
0. -/
theorem non_numeric_len (fs : String → Option (List Byte)) (prog len path : String)
    (content : List Byte) (hlen : nonNumeric len = true) (hpath : path ≠ "-n")
    (hopen : fs path = some content) :
    toSizeT (atoi len) = 0
      ∧ main fs [prog, "-n", len, path] = ⟨0, [], []⟩
      ∧ rows (main fs [prog, "-n", len, path]).stdout = []
      ∧ nonNumeric "abc" = true := by
  have h0 : toSizeT (atoi len) = 0 := by
    rw [atoi_nonNumeric len hlen]
    decide
  have hm : main fs [prog, "-n", len, path] = ⟨0, [], []⟩ := by
    rw [main_limit fs prog len path content hpath hopen, h0, readLoop_zero]
  rw [hm]
  exact ⟨h0, rfl, rfl, by decide⟩

/-- Instance of `non_numeric_len`: `hexdump -n abc f`. -/
theorem non_numeric_len_witness :
    (nonNumeric "abc" = true ∧ "f" ≠ "-n" ∧ sampleFs "f" = some [0x41, 0x42, 0x43])
    ∧ (toSizeT (atoi "abc") = 0
      ∧ main sampleFs ["hexdump", "-n", "abc", "f"] = ⟨0, [], []⟩
      ∧ rows (main sampleFs ["hexdump", "-n", "abc", "f"]).stdout = []
      ∧ nonNumeric "abc" = true) :=
  ⟨⟨by decide, by decide, by decide⟩,
    non_numeric_len sampleFs "hexdump" "abc" "f" [0x41, 0x42, 0x43] (by decide) (by decide)
      (by decide)⟩

/-! ## Chunked output and the offset column -/

theorem limitOf_lt (limit : Option String) : limitOf limit < SIZE_MOD := by
  cases limit with
  | none => decide
  | some len => exact toSizeT_lt _

theorem main_usage (fs : String → Option (List Byte)) (prog path : String)
    (limit : Option String) (content : List Byte) (hpath : path ≠ "-n")
    (hopen : fs path = some content) :
    main fs (usageArgv prog limit path)
      = ⟨0, callsOutput (readLoop (limitOf limit) content (List.replicate buffer_size 0) 0),
          []⟩ := by
  cases limit with
  | none => exact main_no_limit fs prog path content hpath hopen
  | some len => exact main_limit fs prog len path content hpath hopen

/-- One call on a buffer is one call on its first `length` bytes. -/
theorem print_hexdump_take (buffer : List Byte) (length s : Nat) :
    print_hexdump buffer length s = print_hexdump (buffer.take length) length s := by
  unfold print_hexdump
  apply printRows_congr _ _ _ _ _ length 0 (by omega)
  rw [List.take_take, Nat.min_self]

/-- Claim C16 (chunked output equals one-shot output).  For every file and
every limit, or none, the text `main` writes to standard output, which is
the text of its calls of `print_hexdump`, one per read of at most 4096 bytes
with the running offset, is the text of a single call of `print_hexdump` on
the first `min(L, size)` bytes of the file with start offset 0; the same
holds for the read loop with any limit and any prior buffer content. -/
theorem chunked_equals_one_shot (fs : String → Option (List Byte)) (prog path : String)
    (limit : Option String) (content : List Byte) (hpath : path ≠ "-n")
    (hopen : fs path = some content) (hsz : content.length < SIZE_MOD) :
    (main fs (usageArgv prog limit path)).stdout
        = callsOutput (readLoop (limitOf limit) content (List.replicate buffer_size 0) 0)
      ∧ (main fs (usageArgv prog limit path)).stdout
          = print_hexdump (content.take (dumpedLength limit content))
              (dumpedLength limit content) 0
      ∧ ∀ (L : Nat) (buffer : List Byte), L ≤ SIZE_MAX →
          callsOutput (readLoop L content buffer 0)
            = print_hexdump (content.take (min L content.length)) (min L content.length) 0 := by
  rw [main_usage fs prog path limit content hpath hopen]
  refine ⟨rfl, ?_, ?_⟩
  · show callsOutput _ = _
    rw [readLoop_output _ (limitOf_lt limit) content _ hsz, print_hexdump_take]
    rfl
  · intro L buffer hL
    rw [readLoop_output L (by unfold SIZE_MAX at hL; unfold SIZE_MOD; omega) content buffer hsz,
      print_hexdump_take]

/-- Instance of `chunked_equals_one_shot`: `hexdump -n 4098 big`, two reads,
the second one clamped. -/
theorem chunked_equals_one_shot_witness :
    ("big" ≠ "-n" ∧ bigFs "big" = some (List.replicate 4100 0x41)
      ∧ (List.replicate 4100 (0x41 : Byte)).length < SIZE_MOD)
    ∧ ((main bigFs (usageArgv "hexdump" (some "4098") "big")).stdout
        = callsOutput (readLoop (limitOf (some "4098")) (List.replicate 4100 0x41)
            (List.replicate buffer_size 0) 0)
      ∧ (main bigFs (usageArgv "hexdump" (some "4098") "big")).stdout
          = print_hexdump ((List.replicate 4100 (0x41 : Byte)).take
                (dumpedLength (some "4098") (List.replicate 4100 0x41)))
              (dumpedLength (some "4098") (List.replicate 4100 0x41)) 0
      ∧ ∀ (L : Nat) (buffer : List Byte), L ≤ SIZE_MAX →
          callsOutput (readLoop L (List.replicate 4100 0x41) buffer 0)
            = print_hexdump ((List.replicate 4100 (0x41 : Byte)).take
                  (min L (List.replicate 4100 (0x41 : Byte)).length))
                (min L (List.replicate 4100 (0x41 : Byte)).length) 0) :=
  ⟨⟨by decide, rfl, by simp only [List.length_replicate, SIZE_MOD]; decide⟩,
    chunked_equals_one_shot bigFs "hexdump" "big" (some "4098") (List.replicate 4100 0x41)
      (by decide) rfl (by simp only [List.length_replicate, SIZE_MOD]; decide)⟩

/-- Claim C17 (offset column across chunk boundaries).  For every file and
every limit, or none, row `k` of the output of `main` has an offset field
that encodes exactly `16 k`, and its byte columns show the bytes of the file
from position `16 k` on; so the offsets start at 0 and go up by 16 from row
to row through every boundary between reads of 4096 bytes, over all
`ceil(min(L, size) / 16)` rows. -/
theorem offsets_across_chunks (fs : String → Option (List Byte)) (prog path : String)
    (limit : Option String) (content : List Byte) (hpath : path ≠ "-n")
    (hopen : fs path = some content) (hsz : content.length < SIZE_MOD) (k : Nat)
    (hk : k < ceilDiv16 (dumpedLength limit content)) :
    (rows (main fs (usageArgv prog limit path)).stdout).length
        = ceilDiv16 (dumpedLength limit content)
      ∧ ∃ row, (rows (main fs (usageArgv prog limit path)).stdout)[k]? = some row
          ∧ readHex (offsetField row) 0 = some (16 * k)
          ∧ decodeBytes (dropOffsetField row)
              = some ((((content.take (dumpedLength limit content)).drop (16 * k)).take 16).map
                  (fun v => v.val)) := by
  have hm : dumpedLength limit content ≤ content.length := Nat.min_le_right _ _
  have hout : (main fs (usageArgv prog limit path)).stdout
      = print_hexdump content (dumpedLength limit content) 0 := by
    rw [main_usage fs prog path limit content hpath hopen]
    show callsOutput _ = _
    rw [readLoop_output _ (limitOf_lt limit) content _ hsz]
    rfl
  rw [hout, rows_print_hexdump content _ 0 hm]
  refine ⟨by rw [List.length_map, List.length_range], ?_⟩
  refine ⟨fmtHex 8 '0' ((0 + 16 * k) % SIZE_MOD) ++ [' ']
    ++ specGroups (content.take (dumpedLength limit content)) k, ?_, ?_, ?_⟩
  · rw [List.getElem?_map, List.getElem?_range hk]
    rfl
  · rw [offsetField_row _ _ (fun h => space_not_lowerHex (fmtHex_mem 8 _ _ h)),
      readHex_fmtHex]
    have : 16 * k < SIZE_MOD := by
      unfold ceilDiv16 at hk
      omega
    rw [Nat.zero_add, Nat.mod_eq_of_lt this]
  · rw [dropOffsetField_row _ _ (fun h => space_not_lowerHex (fmtHex_mem 8 _ _ h))]
    unfold decodeBytes
    rw [List.filter_cons_of_neg (by simp), filter_specGroups]
    exact decodePairs_hex _

/-- Instance of `offsets_across_chunks`: row 256 of `hexdump big`, the
first row of the second read. -/
theorem offsets_across_chunks_witness :
    ("big" ≠ "-n" ∧ bigFs "big" = some (List.replicate 4100 0x41)
      ∧ (List.replicate 4100 (0x41 : Byte)).length < SIZE_MOD
      ∧ 256 < ceilDiv16 (dumpedLength none (List.replicate 4100 0x41)))
    ∧ ((rows (main bigFs (usageArgv "hexdump" none "big")).stdout).length
        = ceilDiv16 (dumpedLength none (List.replicate 4100 0x41))
      ∧ ∃ row, (rows (main bigFs (usageArgv "hexdump" none "big")).stdout)[256]? = some row
          ∧ readHex (offsetField row) 0 = some (16 * 256)
          ∧ decodeBytes (dropOffsetField row)
              = some (((((List.replicate 4100 (0x41 : Byte)).take
                  (dumpedLength none (List.replicate 4100 0x41))).drop (16 * 256)).take 16).map
                    (fun v => v.val))) :=
  ⟨⟨by decide, rfl, by simp only [List.length_replicate, SIZE_MOD]; decide,
      by simp only [ceilDiv16, dumpedLength, limitOf, SIZE_MAX, List.length_replicate]; decide⟩,
    offsets_across_chunks bigFs "hexdump" "big" none (List.replicate 4100 0x41) (by decide) rfl
      (by simp only [List.length_replicate, SIZE_MOD]; decide) 256
      (by simp only [ceilDiv16, dumpedLength, limitOf, SIZE_MAX, List.length_replicate]; decide)⟩

/-! ## Negative `LEN` and repeated arguments -/

/-- Claim C18 (negative `LEN`).  For every `LEN` for which `atoi` returns a
negative integer `-k`, `k ≥ 1`, as for `-1`, the conversion to `size_t`
leaves `max_bytes = 2 ^ 64 - k`, and for every file smaller than that value
the run has the same standard output, error output and exit code as the run
with no `-n` option: the whole file is dumped, without an error. -/
theorem negative_len_unlimited (fs : String → Option (List Byte)) (prog len path : String)
    (content : List Byte) (k : Nat) (hk : 1 ≤ k) (hatoi : atoi len = -(k : Int))
    (hpath : path ≠ "-n") (hopen : fs path = some content)
    (hsz : content.length < 2 ^ 64 - k) :
    toSizeT (atoi len) = 2 ^ 64 - k
      ∧ main fs [prog, "-n", len, path] = main fs [prog, path]
      ∧ (main fs [prog, "-n", len, path]).exitCode = 0
      ∧ (main fs [prog, "-n", len, path]).stdout = print_hexdump content content.length 0
      ∧ atoi "-1" = -1 ∧ toSizeT (atoi "-1") = SIZE_MAX := by
  have hconv : toSizeT (atoi len) = 2 ^ 64 - k := by
    rw [hatoi]
    unfold toSizeT
    omega
  have hsz' : content.length < SIZE_MOD := by unfold SIZE_MOD; omega
  have hno : main fs [prog, path] = ⟨0, print_hexdump content content.length 0, []⟩ := by
    rw [main_no_limit fs prog path content hpath hopen,
      readLoop_output SIZE_MAX (by decide) content _ hsz',
      Nat.min_eq_right (by unfold SIZE_MAX; omega)]
  have hlim : main fs [prog, "-n", len, path]
      = ⟨0, print_hexdump content content.length 0, []⟩ := by
    rw [main_limit fs prog len path content hpath hopen, hconv,
      readLoop_output _ (by unfold SIZE_MOD; omega) content _ hsz',
      Nat.min_eq_right (by omega)]
  rw [hlim, hno]
  exact ⟨hconv, rfl, rfl, rfl, by decide, by decide⟩

/-- Instance of `negative_len_unlimited`: `hexdump -n -1 f`. -/
theorem negative_len_unlimited_witness :
    (1 ≤ 1 ∧ atoi "-1" = -((1 : Nat) : Int) ∧ "f" ≠ "-n"
      ∧ sampleFs "f" = some [0x41, 0x42, 0x43]
      ∧ ([0x41, 0x42, 0x43] : List Byte).length < 2 ^ 64 - 1)
    ∧ (toSizeT (atoi "-1") = 2 ^ 64 - 1
      ∧ main sampleFs ["hexdump", "-n", "-1", "f"] = main sampleFs ["hexdump", "f"]
      ∧ (main sampleFs ["hexdump", "-n", "-1", "f"]).exitCode = 0
      ∧ (main sampleFs ["hexdump", "-n", "-1", "f"]).stdout
          = print_hexdump [0x41, 0x42, 0x43] ([0x41, 0x42, 0x43] : List Byte).length 0
      ∧ atoi "-1" = -1 ∧ toSizeT (atoi "-1") = SIZE_MAX) :=
  ⟨⟨by decide, by decide, by decide, by decide, by decide⟩,
    negative_len_unlimited sampleFs "hexdump" "-1" "f" [0x41, 0x42, 0x43] 1 (by decide)
      (by decide) (by decide) (by decide) (by decide)⟩

/-- Claim C19 (last wins, extras are not rejected).  For every argument
vector the token directly after an option `-n` is consumed as `LEN` whatever
it looks like, every other token is taken as a file path, and the loop ends
with the last `LEN` and the last file path supplied; a run is decided by
those two alone, so a second positional argument replaces the first and a
second `-n LEN` pair replaces the first, without an error. -/
theorem parsing_last_wins (fs : String → Option (List Byte)) (prog : String)
    (args : List String) :
    (∀ (max_bytes : Nat) (file_path : Option String),
        parseArgs args max_bytes file_path
          = if danglingOption args then none
            else some (lastLimit args max_bytes, lastPath args file_path))
      ∧ (∀ (len : String) (rest : List String) (max_bytes : Nat) (file_path : Option String),
          parseArgs ("-n" :: len :: rest) max_bytes file_path
            = parseArgs rest (toSizeT (atoi len)) file_path)
      ∧ (∀ (a : String) (rest : List String) (max_bytes : Nat) (file_path : Option String),
          a ≠ "-n" → parseArgs (a :: rest) max_bytes file_path = parseArgs rest max_bytes (some a))
      ∧ main fs (prog :: args)
          = (if danglingOption args then ⟨1, [], missingLengthMessage⟩
            else match (filePaths args).getLast? with
              | none => ⟨1, [], usageMessage prog⟩
              | some p =>
                match fs p with
                | none => ⟨1, [], openFailureMessage p⟩
                | some content =>
                  ⟨0, callsOutput (readLoop (lastLimit args SIZE_MAX) content
                    (List.replicate buffer_size 0) 0), []⟩)
      ∧ (∀ p1 p2 : String, p1 ≠ "-n" → p2 ≠ "-n" → main fs [prog, p1, p2] = main fs [prog, p2])
      ∧ (∀ l1 l2 p : String,
          main fs [prog, "-n", l1, "-n", l2, p] = main fs [prog, "-n", l2, p])
      ∧ roles ["-n", "-n", "a", "b"] = [Role.option, Role.value, Role.path, Role.path]
      ∧ lastPath ["-n", "-n", "a", "b"] none = some "b" := by
  refine ⟨fun mb fp => parseArgs_eq_roles args.length args mb fp (le_refl _), ?_, ?_,
    main_eq_roles fs prog args, ?_, ?_, by decide, by decide⟩
  · intro len rest mb fp
    rw [parseArgs, if_pos rfl]
  · intro a rest mb fp ha
    cases rest with
    | nil => simp only [parseArgs, if_neg ha]
    | cons b rest => simp only [parseArgs, if_neg ha]
  · intro p1 p2 h1 h2
    simp only [main, List.tail_cons, parseArgs, if_neg h1, if_neg h2]
  · intro l1 l2 p
    simp only [main, List.tail_cons, parseArgs, if_true, List.headD_cons]

end HexDump
